import Mathlib

/-!
Verification of the cat-and-mouse simulation engine.

The definitions below are a shallow embedding of the Python source
`cat_mouse_game.py`: grids are lists of rows of cell kinds, coordinates are
integers, the breadth-first search keeps an explicit queue of
(cell, path-so-far) entries and a visited list, and the turn machinery is a
pure step function on an explicit game-state record.  Randomness in maze
generation is modelled by an explicit stream of draws.
-/

namespace CatMouse

/-- Cell kinds of the grid, mirroring the Python `GridType` enum. -/
inductive GridType where
  | PATH
  | WALL
  | DOOR
deriving DecidableEq, Repr

/-- A grid coordinate (x, y). -/
abbrev GCell := Int × Int

/-- A grid is a list of rows, each a list of cell kinds (`grid[y][x]`). -/
abbrev Grid := List (List GridType)

/-- The fixed board side used by the game (`GRID_SIZE = 12`). -/
def GRID_SIZE : Nat := 12

/-- Cell lookup `grid[y][x]`; out-of-range access is totalised to `WALL`
(the source always guards accesses with bounds checks). -/
def gridAt (g : Grid) (x y : Int) : GridType :=
  (((g.get? y.toNat).getD []).get? x.toNat).getD GridType.WALL

/-- Boolean matrix lookup `door_states[y][x]` totalised to `false`. -/
def boolAt (d : List (List Bool)) (x y : Int) : Bool :=
  (((d.get? y.toNat).getD []).get? x.toNat).getD false

/-- Update the element at index `i` of a list in place (Python list item
assignment). -/
def updAt : List α → Nat → (α → α) → List α
  | [], _, _ => []
  | a :: l, 0, f => f a :: l
  | a :: l, n + 1, f => a :: updAt l n f

/-- Setting entry `m[y][x] := v` in a list-of-rows matrix. -/
def set2 (m : List (List α)) (x y : Int) (v : α) : List (List α) :=
  updAt m y.toNat (fun row => updAt row x.toNat (fun _ => v))

/-- The neighbour offsets, in the iteration order used throughout the
source: `[(0, 1), (1, 0), (0, -1), (-1, 0)]`. -/
def dirs : List GCell := [(0, 1), (1, 0), (0, -1), (-1, 0)]

/-- Coordinate-wise addition of an offset to a cell. -/
def cadd (c d : GCell) : GCell := (c.1 + d.1, c.2 + d.2)

/-- Bounds check `0 <= x < N and 0 <= y < N`. -/
def inB (N : Nat) (c : GCell) : Bool :=
  decide (0 ≤ c.1) && decide (c.1 < (N : Int)) && decide (0 ≤ c.2) && decide (c.2 < (N : Int))

/-- A cell the search may step onto: in bounds and not a wall
(`PATH`, or `DOOR` whether opened or not). -/
def trav (N : Nat) (g : Grid) (c : GCell) : Bool :=
  inB N c && decide (gridAt g c.1 c.2 ≠ GridType.WALL)

/-- A BFS queue entry: the discovered cell together with the path that
reached it (the path excludes the start and ends with the cell). -/
abbrev Entry := GCell × List GCell

/-- One neighbour probe of the BFS inner loop: if the neighbour is in
bounds, unvisited and not a wall, enqueue it and mark it visited. -/
def expandDir (N : Nat) (g : Grid) (x y : Int) (path : List GCell)
    (st : List Entry × List GCell) (d : GCell) : List Entry × List GCell :=
  let nx := x + d.1
  let ny := y + d.2
  if inB N (nx, ny) = true ∧ (nx, ny) ∉ st.2 ∧ gridAt g nx ny ≠ GridType.WALL then
    (st.1 ++ [((nx, ny), path ++ [(nx, ny)])], st.2 ++ [(nx, ny)])
  else st

/-- The BFS inner loop over the four neighbour offsets. -/
def expand (N : Nat) (g : Grid) (x y : Int) (path : List GCell)
    (q : List Entry) (v : List GCell) : List Entry × List GCell :=
  dirs.foldl (expandDir N g x y path) (q, v)

/-- The BFS main loop: pop the front entry, return its path on reaching the
target, otherwise enqueue the eligible neighbours.  The fuel argument only
bounds the iteration count; `bfs_pathfind` supplies enough fuel for the
loop to run to completion. -/
def bfsAux (N : Nat) (g : Grid) (tx ty : Int) :
    Nat → List Entry → List GCell → List GCell
  | 0, _, _ => []
  | _ + 1, [], _ => []
  | fuel + 1, (c, path) :: rest, visited =>
    if c = (tx, ty) then path
    else
      let st := expand N g c.1 c.2 path rest visited
      bfsAux N g tx ty fuel st.1 st.2

/-- `Game.bfs_pathfind`: breadth-first search from `(sx, sy)` to
`(tx, ty)`; returns the path excluding the start, or `[]`. -/
def bfs_pathfind (N : Nat) (g : Grid) (sx sy tx ty : Int) : List GCell :=
  bfsAux N g tx ty (N * N + 1) [((sx, sy), [])] [(sx, sy)]

/-- Boolean 4-adjacency: `b` is one of the four neighbours of `a`. -/
def adjB (a b : GCell) : Bool :=
  decide ((b.1 - a.1, b.2 - a.2) ∈ dirs)

/-- A step-valid walk from `s` through the successive cells of `w`:
each cell is 4-adjacent to its predecessor and traversable.  The start
itself is never inspected, exactly as in the search. -/
def walkOk (N : Nat) (g : Grid) : GCell → List GCell → Bool
  | _, [] => true
  | s, c :: w => adjB s c && trav N g c && walkOk N g c w

/-- `w` is a valid walk from `s` that ends at `z` (the empty walk reaches
only `s` itself). -/
def Reaches (N : Nat) (g : Grid) (s : GCell) (w : List GCell) (z : GCell) : Prop :=
  walkOk N g s w = true ∧ w.getLastD s = z

/-- Comparison against an optional bound, where `none` plays the role of
`float('inf')` in `find_nearest_target`. -/
def ltInf (n : Nat) : Option Nat → Bool
  | none => true
  | some m => decide (n < m)

/-- The accumulating loop of `Game.find_nearest_target`: `md` is the best
(finite) distance seen so far, `best` the candidate achieving it. -/
def find_nearest_aux (N : Nat) (g : Grid) (cx cy : Int) (posOf : α → GCell) :
    List α → Option Nat → Option α → Option α
  | [], _, best => best
  | t :: ts, md, best =>
    let p := bfs_pathfind N g cx cy (posOf t).1 (posOf t).2
    if p ≠ [] ∧ ltInf p.length md = true then
      find_nearest_aux N g cx cy posOf ts (some p.length) (some t)
    else
      find_nearest_aux N g cx cy posOf ts md best

/-- `Game.find_nearest_target`: the candidate with the strictly smallest
non-empty BFS path, first-encountered winning ties. -/
def find_nearest_target (N : Nat) (g : Grid) (cx cy : Int) (targets : List α)
    (posOf : α → GCell) : Option α :=
  find_nearest_aux N g cx cy posOf targets none none

/-- An evader agent (`Mouse`): position, alive flag, target reference
(modelled as an index into the cheese list), and the animation flag the
scheduler polls.  Identity and colour have no mechanical role. -/
structure MouseS where
  x : Int
  y : Int
  alive : Bool
  target : Option Nat
  animating : Bool
deriving DecidableEq

/-- An item (`Cheese`): position and eaten flag. -/
structure CheeseS where
  x : Int
  y : Int
  eaten : Bool
deriving DecidableEq

/-- Dictionary lookup in the claim ledger `claimed_cheeses`
(cheese index to claiming mouse index). -/
def lookupClaim (cl : List (Nat × Nat)) (k : Nat) : Option Nat :=
  (cl.find? (fun e => e.1 == k)).map (·.2)

/-- Dictionary assignment `claimed_cheeses[k] = v` (overwrite). -/
def setClaim (cl : List (Nat × Nat)) (k v : Nat) : List (Nat × Nat) :=
  cl.filter (fun e => !(e.1 == k)) ++ [(k, v)]

/-- The uneaten cheeses, with their indices (Python iterates the cheese
objects; the index models object identity). -/
def uneaten_list (cheeses : List CheeseS) : List (Nat × CheeseS) :=
  cheeses.enum.filter (fun ic => !ic.2.eaten)

/-- The candidate set of `find_nearest_unclaimed_cheese`: uneaten cheeses
not claimed, or claimed by the querying mouse `mi` itself. -/
def available_cheese (cheeses : List CheeseS) (cl : List (Nat × Nat)) (mi : Nat) :
    List (Nat × CheeseS) :=
  (uneaten_list cheeses).filter
    (fun ic => decide (lookupClaim cl ic.1 = none ∨ lookupClaim cl ic.1 = some mi))

/-- `Game.find_nearest_unclaimed_cheese`: nearest cheese from the filtered
candidate set, falling back to all uneaten cheeses when it is empty. -/
def find_nearest_unclaimed_cheese (g : Grid) (cheeses : List CheeseS)
    (cl : List (Nat × Nat)) (m : MouseS) (mi : Nat) : Option (Nat × CheeseS) :=
  let avail := available_cheese cheeses cl mi
  let pool := if avail = [] then uneaten_list cheeses else avail
  find_nearest_target GRID_SIZE g m.x m.y pool (fun ic => (ic.2.x, ic.2.y))

/-- A discrete action emitted by turn planning. -/
inductive Action where
  | open_door (x y : Int)
  | move (x y : Int)
deriving DecidableEq

/-- Terminal outcomes. -/
inductive Winner where
  | CAT
  | MICE
deriving DecidableEq

/-- The scheduler phases (`turn_phase` strings of the source). -/
inductive Phase where
  | ANNOUNCE_CAT
  | EXECUTE_CAT
  | EXECUTING_CAT
  | ANNOUNCE_MOUSE1
  | EXECUTE_MOUSE1
  | EXECUTING_MOUSE1
  | ANNOUNCE_MOUSE2
  | EXECUTE_MOUSE2
  | EXECUTING_MOUSE2
deriving DecidableEq

/-- Which agent `current_character` references. -/
inductive CurChar where
  | cat
  | mouse (i : Nat)
deriving DecidableEq

/-- The mutable simulation state of `Game` (presentation-only fields such
as pixel interpolation are elided; `animating` flags are kept because the
scheduler polls them). -/
structure GameState where
  grid : Grid
  doors : List (List Bool)
  catX : Int
  catY : Int
  catTarget : Option Nat
  catAnim : Bool
  mice : List MouseS
  cheeses : List CheeseS
  pending : List Action
  curChar : Option CurChar
  doorAnim : Option Int
  claimed : List (Nat × Nat)
  phase : Phase
  turn : Nat
  mouseIdx : Nat
  lastTurnTime : Int
  speedMult : Nat
  winner : Option Winner

/-- `len(mice) > i and mice[i].alive` collapsed to a lookup. -/
def mAlive (mice : List MouseS) (i : Nat) : Bool :=
  ((mice.get? i).map (·.alive)).getD false

/-- `BASE_TURN_DELAY` from the source. -/
def BASE_TURN_DELAY : Nat := 800

/-- The turn dwell delay, scaled by the speed multiplier. -/
def turnDelay (s : GameState) : Int := ((BASE_TURN_DELAY / s.speedMult : Nat) : Int)

/-- Whether `current_character` is mid-animation. -/
def curAnimating (s : GameState) : Bool :=
  match s.curChar with
  | none => false
  | some CurChar.cat => s.catAnim
  | some (CurChar.mouse i) => ((s.mice.get? i).map (·.animating)).getD false

/-- The budget-consumption loop of `Game.plan_cat_turn`: walk the path in
order, spending one point to open a closed door and one per move, stopping
when the budget runs out. -/
def consume_budget (g : Grid) (doors : List (List Bool)) :
    List GCell → Nat → List Action
  | [], _ => []
  | _ :: _, 0 => []
  | (nx, ny) :: rest, mp + 1 =>
    if gridAt g nx ny = GridType.DOOR ∧ boolAt doors nx ny = false then
      Action.open_door nx ny ::
        (if 0 < mp then Action.move nx ny :: consume_budget g doors rest (mp - 1) else [])
    else
      Action.move nx ny :: consume_budget g doors rest mp

/-- `Game.plan_cat_turn`: select the nearest living mouse, recompute the
path, spend the budget of 2.  Also returns the index the cat's target
field is set to, when a target was found. -/
def plan_cat_turn (s : GameState) : List Action × Option Nat :=
  let alive_mice := s.mice.enum.filter (fun im => im.2.alive)
  if alive_mice = [] then ([], none)
  else
    match find_nearest_target GRID_SIZE s.grid s.catX s.catY alive_mice
        (fun im => (im.2.x, im.2.y)) with
    | none => ([], none)
    | some im =>
      let path := bfs_pathfind GRID_SIZE s.grid s.catX s.catY im.2.x im.2.y
      if path = [] then ([], some im.1)
      else (consume_budget s.grid s.doors path 2, some im.1)

/-- `Game.plan_mouse_turn` for the mouse at index `i`: select a cheese,
record the claim and the mouse's target, and emit at most one action. -/
def plan_mouse_turn (s : GameState) (i : Nat) : List Action × GameState :=
  match s.mice.get? i with
  | none => ([], s)
  | some m =>
    if m.alive = false then ([], s)
    else
      match find_nearest_unclaimed_cheese s.grid s.cheeses s.claimed m i with
      | none => ([], s)
      | some ic =>
        let s1 := { s with
          claimed := setClaim s.claimed ic.1 i
          mice := updAt s.mice i (fun mm => { mm with target := some ic.1 }) }
        match bfs_pathfind GRID_SIZE s.grid m.x m.y ic.2.x ic.2.y with
        | [] => ([], s1)
        | (nx, ny) :: _ =>
          if gridAt s.grid nx ny = GridType.DOOR ∧ boolAt s.doors nx ny = false then
            ([Action.open_door nx ny], s1)
          else
            ([Action.move nx ny], s1)

/-- `Game.check_victory` as a pure evaluation: `CAT` when no mouse is
alive, else `MICE` when no cheese is uneaten, else no outcome. -/
def check_victory (mice : List MouseS) (cheeses : List CheeseS) : Option Winner :=
  if mice.filter (·.alive) = [] then some Winner.CAT
  else if cheeses.filter (fun c => !c.eaten) = [] then some Winner.MICE
  else none

/-- The capture loop run after a cat move: every alive mouse on the cat's
cell dies, loses its target, and has all its claim entries released. -/
def killMice (cx cy : Int) :
    List (Nat × MouseS) → List (Nat × Nat) → List MouseS × List (Nat × Nat)
  | [], cl => ([], cl)
  | (i, m) :: ms, cl =>
    if m.alive = true ∧ m.x = cx ∧ m.y = cy then
      let r := killMice cx cy ms (cl.filter (fun e => !(e.2 == i)))
      ({ m with alive := false, target := none } :: r.1, r.2)
    else
      let r := killMice cx cy ms cl
      (m :: r.1, r.2)

/-- The eating loop run after a mouse move: every uneaten cheese on the
mouse's cell becomes eaten and its claim entry is removed; the returned
flag records whether the mover's target must be cleared. -/
def eatCheeses (mx my : Int) :
    List (Nat × CheeseS) → List (Nat × Nat) → List CheeseS × List (Nat × Nat) × Bool
  | [], cl => ([], cl, false)
  | (i, c) :: cs, cl =>
    if c.eaten = false ∧ c.x = mx ∧ c.y = my then
      let r := eatCheeses mx my cs (cl.filter (fun e => !(e.1 == i)))
      ({ c with eaten := true } :: r.1, r.2.1, true)
    else
      let r := eatCheeses mx my cs cl
      (c :: r.1, r.2.1, r.2.2)

/-- Apply one dequeued action (`Game.execute_next_move` past its gates). -/
def exec_action (s : GameState) (now : Int) (a : Action) (rest : List Action) : GameState :=
  match a with
  | Action.open_door x y =>
    { s with pending := rest, doors := set2 s.doors x y true, doorAnim := some now }
  | Action.move x y =>
    match s.curChar with
    | some CurChar.cat =>
      let s1 := { s with pending := rest, catX := x, catY := y, catAnim := true }
      let km := killMice x y s1.mice.enum s1.claimed
      { s1 with mice := km.1, claimed := km.2 }
    | some (CurChar.mouse i) =>
      let s1 := { s with
        pending := rest
        mice := updAt s.mice i (fun m => { m with x := x, y := y, animating := true }) }
      let ec := eatCheeses x y s1.cheeses.enum s1.claimed
      { s1 with
        cheeses := ec.1
        claimed := ec.2.1
        mice := if ec.2.2 = true then
            updAt s1.mice i (fun m => { m with target := none })
          else s1.mice }
    | none => { s with pending := rest }

/-- `Game.execute_next_move`: returns whether the queue was already empty
(turn complete), plus the successor state.  The gates mirror the source:
an empty queue returns immediately; an animating agent or an unexpired
door-settle delay defers the action. -/
def exec_next_move (s : GameState) (now : Int) : Bool × GameState :=
  match s.pending with
  | [] => (true, s)
  | a :: rest =>
    if curAnimating s = true then (false, s)
    else
      match s.doorAnim with
      | some t0 =>
        if now - t0 < ((300 / s.speedMult : Nat) : Int) then (false, s)
        else (false, exec_action { s with doorAnim := none } now a rest)
      | none => (false, exec_action s now a rest)

/-- The phase chain after the cat's turn: to `ANNOUNCE_MOUSE1` if mouse 1
is alive, else `ANNOUNCE_MOUSE2` if mouse 2 is alive, else wrap to
`ANNOUNCE_CAT` and advance the turn counter. -/
def afterCatPhase (s : GameState) : GameState :=
  if 0 < s.mice.length ∧ mAlive s.mice 0 = true then
    { s with phase := Phase.ANNOUNCE_MOUSE1 }
  else if 1 < s.mice.length ∧ mAlive s.mice 1 = true then
    { s with phase := Phase.ANNOUNCE_MOUSE2 }
  else
    { s with turn := s.turn + 1, phase := Phase.ANNOUNCE_CAT }

/-- The phase chain after mouse 1's turn. -/
def afterMouse1Phase (s : GameState) : GameState :=
  if 1 < s.mice.length ∧ mAlive s.mice 1 = true then
    { s with phase := Phase.ANNOUNCE_MOUSE2 }
  else
    { s with turn := s.turn + 1, phase := Phase.ANNOUNCE_CAT }

/-- The phase dispatch of `Game.process_turn` (the branch ladder reached
once the dwell delay has elapsed). -/
def dispatch (s : GameState) (now : Int) : GameState :=
  match s.phase with
  | Phase.ANNOUNCE_CAT => { s with phase := Phase.EXECUTE_CAT }
  | Phase.EXECUTE_CAT =>
    let pc := plan_cat_turn s
    let s2 := { s with
      curChar := some CurChar.cat
      pending := pc.1
      catTarget := match pc.2 with | some i => some i | none => s.catTarget }
    if s2.pending = [] then afterCatPhase s2 else { s2 with phase := Phase.EXECUTING_CAT }
  | Phase.EXECUTING_CAT =>
    if s.pending = [] ∧ curAnimating s = false then
      { (afterCatPhase s) with lastTurnTime := now }
    else s
  | Phase.ANNOUNCE_MOUSE1 =>
    let s1 := { s with mouseIdx := 0 }
    if 0 < s1.mice.length ∧ mAlive s1.mice 0 = true then
      { s1 with phase := Phase.EXECUTE_MOUSE1 }
    else if 1 < s1.mice.length ∧ mAlive s1.mice 1 = true then
      { s1 with phase := Phase.ANNOUNCE_MOUSE2 }
    else
      { s1 with turn := s1.turn + 1, phase := Phase.ANNOUNCE_CAT }
  | Phase.EXECUTE_MOUSE1 =>
    let s1 :=
      if 0 < s.mice.length ∧ mAlive s.mice 0 = true then
        let pm := plan_mouse_turn { s with curChar := some (CurChar.mouse 0) } 0
        { pm.2 with pending := pm.1 }
      else s
    if s1.pending = [] then afterMouse1Phase s1
    else { s1 with phase := Phase.EXECUTING_MOUSE1 }
  | Phase.EXECUTING_MOUSE1 =>
    if s.pending = [] ∧ curAnimating s = false then
      { (afterMouse1Phase s) with lastTurnTime := now }
    else s
  | Phase.ANNOUNCE_MOUSE2 =>
    let s1 := { s with mouseIdx := 1 }
    if 1 < s1.mice.length ∧ mAlive s1.mice 1 = true then
      { s1 with phase := Phase.EXECUTE_MOUSE2 }
    else
      { s1 with turn := s1.turn + 1, phase := Phase.ANNOUNCE_CAT }
  | Phase.EXECUTE_MOUSE2 =>
    let s1 :=
      if 1 < s.mice.length ∧ mAlive s.mice 1 = true then
        let pm := plan_mouse_turn { s with curChar := some (CurChar.mouse 1) } 1
        { pm.2 with pending := pm.1 }
      else s
    if s1.pending = [] then { s1 with turn := s1.turn + 1, phase := Phase.ANNOUNCE_CAT }
    else { s1 with phase := Phase.EXECUTING_MOUSE2 }
  | Phase.EXECUTING_MOUSE2 =>
    if s.pending = [] ∧ curAnimating s = false then
      { s with turn := s.turn + 1, phase := Phase.ANNOUNCE_CAT, lastTurnTime := now }
    else s

/-- The `check_victory` call at the end of `process_turn`: a result, when
produced, overwrites the stored outcome; otherwise it is left as is. -/
def applyVictory (s : GameState) : GameState :=
  match check_victory s.mice s.cheeses with
  | some w => { s with winner := some w }
  | none => s

/-- The tail of `Game.process_turn`: dwell check, then dispatch and
victory evaluation. -/
def process_turn_core (s : GameState) (now : Int) : GameState :=
  if now - s.lastTurnTime < turnDelay s then s
  else applyVictory (dispatch { s with lastTurnTime := now } now)

/-- `Game.process_turn`: drain one pending action first (returning early
unless the queue was already empty), then run the phase machinery. -/
def process_turn (s : GameState) (now : Int) : GameState :=
  if s.pending ≠ [] ∨ curAnimating s = true then
    match exec_next_move s now with
    | (true, s1) => process_turn_core s1 now
    | (false, s1) => s1
  else process_turn_core s now

/-- Overwrite animation flags (the effect `update_animation` can have on
the fields the engine reads). -/
def setAnims (mice : List MouseS) (f : Nat → Bool) : List MouseS :=
  mice.enum.map (fun im => { im.2 with animating := f im.1 })

/-- One host-loop step: a `process_turn` tick (only while no winner is
set), an animation update, or a speed-button change. -/
inductive GStep : GameState → GameState → Prop where
  | turn (s : GameState) (t : Int) (h : s.winner = none) : GStep s (process_turn s t)
  | anim (s : GameState) (b : Bool) (f : Nat → Bool) :
      GStep s { s with catAnim := b, mice := setAnims s.mice f }
  | speed (s : GameState) (m : Nat) : GStep s { s with speedMult := m }

/-- A run-start state (what the start button establishes before play). -/
def InitState (s : GameState) : Prop :=
  s.phase = Phase.ANNOUNCE_CAT ∧ s.pending = [] ∧ s.curChar = none ∧ s.winner = none

/-- States reachable from some run-start state by host-loop steps. -/
def ReachableGS (s : GameState) : Prop :=
  ∃ s0, InitState s0 ∧ Relation.ReflTransGen GStep s0 s

/-- The scheduler invariant: in an announce phase the action queue is
empty, and in an evader's announce phase that evader is alive. -/
def SchedInv (s : GameState) : Prop :=
  (s.phase = Phase.ANNOUNCE_CAT → s.pending = []) ∧
  (s.phase = Phase.ANNOUNCE_MOUSE1 → s.pending = [] ∧ mAlive s.mice 0 = true) ∧
  (s.phase = Phase.ANNOUNCE_MOUSE2 → s.pending = [] ∧ mAlive s.mice 1 = true)

/-- The two-cell-step offsets inspected by the depth-first carver. -/
def dfsDirs : List GCell := [(0, 2), (2, 0), (0, -2), (-2, 0)]

/-- The unvisited lattice neighbours of `(x, y)`, in source order: two
cells away, strictly inside the border, still walls. -/
def dfsNeighbors (N : Nat) (maze : Grid) (x y : Int) : List (Int × Int × Int × Int) :=
  dfsDirs.filterMap (fun d =>
    let nx := x + d.1
    let ny := y + d.2
    if 1 ≤ nx ∧ nx < (N : Int) - 1 ∧ 1 ≤ ny ∧ ny < (N : Int) - 1 ∧
        gridAt maze nx ny = GridType.WALL then
      some (nx, ny, d.1, d.2)
    else none)

/-- The depth-first carving loop.  `ds` feeds `random.choice`: one draw is
consumed per carve, selecting index `draw % |neighbours|`.  The stack top
is the current cell; with no carveable neighbour it is popped. -/
def dfsCarveLoop (N : Nat) : Nat → List Nat → List GCell → Grid → Grid
  | 0, _, _, maze => maze
  | _ + 1, _, [], maze => maze
  | fuel + 1, ds, (x, y) :: stack, maze =>
    let nbs := dfsNeighbors N maze x y
    if nbs = [] then dfsCarveLoop N fuel ds stack maze
    else
      let nb := nbs.getD (ds.headD 0 % nbs.length) (0, 0, 0, 0)
      let maze1 := set2 maze (x + nb.2.2.1 / 2) (y + nb.2.2.2 / 2) GridType.PATH
      let maze2 := set2 maze1 nb.1 nb.2.1 GridType.PATH
      dfsCarveLoop N fuel ds.tail ((nb.1, nb.2.1) :: (x, y) :: stack) maze2

/-- The depth-first maze carving of `Game.generate_maze_dfs` before the
braiding passes: all walls, then carve from `(1, 1)`. -/
def dfs_carve (N : Nat) (ds : List Nat) : Grid :=
  dfsCarveLoop N (4 * N * N) ds [(1, 1)]
    (set2 (List.replicate N (List.replicate N GridType.WALL)) 1 1 GridType.PATH)

/-- How many values `random.randrange(2, N - 2, 2)` can produce. -/
def braidCount (N : Nat) : Nat := (N - 4 + 1) / 2

/-- One braiding attempt at `(x, y)`: carve the first adjacent wall whose
two-step continuation is already a path. -/
def braidAt (maze : Grid) (x y : Int) : Grid :=
  match dirs.find? (fun d =>
      (gridAt maze (x + d.1) (y + d.2) == GridType.WALL) &&
      (gridAt maze (x + d.1 * 2) (y + d.2 * 2) == GridType.PATH)) with
  | some d => set2 maze (x + d.1) (y + d.2) GridType.PATH
  | none => maze

/-- The braiding passes: each draw pair picks `x` and `y` from
`randrange(2, N - 2, 2)` (even coordinates). -/
def braid (N : Nat) : List (Nat × Nat) → Grid → Grid
  | [], maze => maze
  | b :: bs, maze =>
    let x : Int := 2 + 2 * ((b.1 % braidCount N : Nat) : Int)
    let y : Int := 2 + 2 * ((b.2 % braidCount N : Nat) : Int)
    braid N bs (braidAt maze x y)

/-- `Game.generate_maze_dfs`: depth-first carving followed by `2 * N`
braiding iterations. -/
def generate_maze_dfs (N : Nat) (ds : List Nat) (bs : List (Nat × Nat)) : Grid :=
  braid N (bs.take (2 * N)) (dfs_carve N ds)

/-- A cell with both coordinates even is a wall (out-of-range lookups
already read as walls). -/
def EvenWall (m : Grid) : Prop :=
  ∀ x y : Int, x % 2 = 0 → y % 2 = 0 → gridAt m x y = GridType.WALL

/-- A cell with both coordinates odd and positive (the lattice cells the
carver walks on). -/
def OddCell (c : GCell) : Prop :=
  c.1 % 2 = 1 ∧ c.2 % 2 = 1 ∧ 1 ≤ c.1 ∧ 1 ≤ c.2

/-- A cell with at least one odd positive coordinate (every cell the
carver ever converts to `PATH`). -/
def GoodCell (a b : Int) : Prop :=
  (1 ≤ a ∧ a % 2 = 1) ∨ (1 ≤ b ∧ b % 2 = 1)

/-- The BFS path length `find_nearest_target` compares candidates by. -/
def pathLen (N : Nat) (g : Grid) (cx cy : Int) (posOf : α → GCell) (t : α) : Nat :=
  (bfs_pathfind N g cx cy (posOf t).1 (posOf t).2).length

/-- The door test of the planners: a `DOOR` cell whose state is still
closed. -/
def closedDoor (g : Grid) (doors : List (List Bool)) (c : GCell) : Prop :=
  gridAt g c.1 c.2 = GridType.DOOR ∧ boolAt doors c.1 c.2 = false

/-- The number of in-bounds cells not yet visited (drives the fuel
accounting of the search). -/
def allCells (N : Nat) : List GCell :=
  (List.range N).flatMap (fun a =>
    (List.range N).map (fun b => (Int.ofNat a, Int.ofNat b)))

/-- Count of in-bounds cells outside the visited list. -/
def unvis (N : Nat) (v : List GCell) : Nat :=
  ((allCells N).filter (fun c => decide (c ∉ v))).length

/-- The breadth-first-search loop invariant, relating the queue and the
visited list to the start cell: every queue entry carries a valid walk to
its cell of optimal length, entry lengths form (at most) two consecutive
levels, every cell closer than the current frontier is already visited,
and every visited cell no longer queued has all its traversable
neighbours visited. -/
structure BfsInv (N : Nat) (g : Grid) (s : GCell)
    (q : List Entry) (v : List GCell) : Prop where
  startVis : s ∈ v
  entries : ∀ e ∈ q, Reaches N g s e.2 e.1
  noStart : ∀ e ∈ q, s ∉ e.2
  opt : ∀ e ∈ q, ∀ w, Reaches N g s w e.1 → e.2.length ≤ w.length
  levels : ∃ l0 A B, q = A ++ B ∧ (∀ e ∈ A, e.2.length = l0) ∧
    (∀ e ∈ B, e.2.length = l0 + 1)
  frontier : ∀ z w, Reaches N g s w z → (∀ e ∈ q, w.length < e.2.length) → z ∈ v
  expanded : ∀ z ∈ v, (∀ e ∈ q, e.1 ≠ z) →
    ∀ c, adjB z c = true → trav N g c = true → c ∈ v
  cells : ∀ e ∈ q, e.1 ∈ v

/-- What `find_nearest_target` promises about a returned candidate `r`:
it sits at some index `i`, has a non-empty path, no candidate with a
non-empty path is strictly closer, and every earlier candidate with a
non-empty path is strictly farther. -/
def NearSpec (N : Nat) (g : Grid) (cx cy : Int) (posOf : α → GCell)
    (ts : List α) (r : α) : Prop :=
  ∃ i, ts.get? i = some r ∧ 0 < pathLen N g cx cy posOf r ∧
    (∀ j u, ts.get? j = some u → 0 < pathLen N g cx cy posOf u →
      pathLen N g cx cy posOf r ≤ pathLen N g cx cy posOf u) ∧
    (∀ j u, j < i → ts.get? j = some u → 0 < pathLen N g cx cy posOf u →
      pathLen N g cx cy posOf r < pathLen N g cx cy posOf u)

/-- Invariant of the `find_nearest_aux` accumulator over the processed
prefix: either nothing admissible has been seen, or `best` is the
first-encountered minimal admissible candidate so far. -/
def NearInv (N : Nat) (g : Grid) (cx cy : Int) (posOf : α → GCell)
    (processed : List α) (md : Option Nat) (best : Option α) : Prop :=
  (md = none ∧ best = none ∧ ∀ t ∈ processed, pathLen N g cx cy posOf t = 0) ∨
  (∃ n i t, md = some n ∧ best = some t ∧ processed.get? i = some t ∧
    pathLen N g cx cy posOf t = n ∧ 0 < n ∧
    (∀ j u, processed.get? j = some u → 0 < pathLen N g cx cy posOf u →
      n ≤ pathLen N g cx cy posOf u) ∧
    (∀ j u, j < i → processed.get? j = some u → 0 < pathLen N g cx cy posOf u →
      n < pathLen N g cx cy posOf u))

/-- A tiny all-path grid for concrete evaluations. -/
def g3 : Grid := List.replicate 3 (List.replicate 3 GridType.PATH)

/-- A concrete state with the predator about to move onto an alive
evader's cell, used to evaluate the executor theorems. -/
def stExecCat : GameState where
  grid := []
  doors := []
  catX := 1
  catY := 3
  catTarget := some 0
  catAnim := false
  mice := [⟨2, 3, true, some 0, false⟩]
  cheeses := [⟨5, 5, false⟩]
  pending := [Action.move 2 3]
  curChar := some CurChar.cat
  doorAnim := none
  claimed := [(0, 0)]
  phase := Phase.EXECUTING_CAT
  turn := 0
  mouseIdx := 0
  lastTurnTime := 0
  speedMult := 1
  winner := none

/-- `stExecCat` with a door-settle timer set long ago, so the predator's
move executes through the expired door-settle branch of the executor (the
branch taken by every open-door-then-step-through plan). -/
def stExecCatDoor : GameState := { stExecCat with doorAnim := some (-500) }

/-- A concrete run-start state. -/
def stInit : GameState where
  grid := g3
  doors := []
  catX := 1
  catY := 1
  catTarget := none
  catAnim := false
  mice := [⟨0, 0, true, none, false⟩, ⟨2, 2, true, none, false⟩]
  cheeses := [⟨2, 0, false⟩]
  pending := []
  curChar := none
  doorAnim := none
  claimed := []
  phase := Phase.ANNOUNCE_CAT
  turn := 0
  mouseIdx := 0
  lastTurnTime := 0
  speedMult := 1
  winner := none

/-- A concrete state whose only alive evader shares the predator's cell. -/
def stSame : GameState where
  grid := g3
  doors := []
  catX := 1
  catY := 1
  catTarget := none
  catAnim := false
  mice := [⟨1, 1, true, none, false⟩]
  cheeses := [⟨2, 2, false⟩]
  pending := []
  curChar := none
  doorAnim := none
  claimed := []
  phase := Phase.EXECUTE_CAT
  turn := 0
  mouseIdx := 0
  lastTurnTime := 0
  speedMult := 1
  winner := none

/-- A concrete state with an evader about to move onto the predator's
cell. -/
def stExecMouse : GameState where
  grid := []
  doors := []
  catX := 1
  catY := 1
  catTarget := none
  catAnim := false
  mice := [⟨0, 1, true, none, false⟩]
  cheeses := [⟨5, 5, false⟩]
  pending := [Action.move 1 1]
  curChar := some (CurChar.mouse 0)
  doorAnim := none
  claimed := []
  phase := Phase.EXECUTING_MOUSE1
  turn := 0
  mouseIdx := 0
  lastTurnTime := 0
  speedMult := 1
  winner := none

/- From here on: the verification itself. -/

theorem updAt_get?_ne (l : List α) (f : α → α) :
    ∀ n k, n ≠ k → (updAt l n f).get? k = l.get? k := by
  induction l with
  | nil => intro n k _; rfl
  | cons a l ih =>
    intro n k hnk
    cases n with
    | zero =>
      cases k with
      | zero => exact absurd rfl hnk
      | succ k => rfl
    | succ n =>
      cases k with
      | zero => rfl
      | succ k => exact ih n k (by omega)

theorem updAt_get?_eq (l : List α) (f : α → α) :
    ∀ n, (updAt l n f).get? n = (l.get? n).map f := by
  induction l with
  | nil => intro n; rfl
  | cons a l ih =>
    intro n
    cases n with
    | zero => rfl
    | succ n => exact ih n

theorem updAt_map_eq (l : List α) (g : α → β) (f : α → α)
    (hf : ∀ a, g (f a) = g a) : ∀ n, (updAt l n f).map g = l.map g := by
  induction l with
  | nil => intro n; rfl
  | cons a l ih =>
    intro n
    cases n with
    | zero => simp [updAt, hf]
    | succ n => simp [updAt, ih]

theorem enum_mem_of_get? {l : List α} {i : Nat} {a : α} (h : l.get? i = some a) :
    (i, a) ∈ l.enum := by
  have := List.enum_get? l i
  rw [h] at this
  exact List.get?_mem this

/-- C3: victory evaluation yields predator-wins exactly when no evader is
alive, evaders-win exactly when no item is uneaten while some evader
still lives; with both conditions the no-evaders check takes precedence,
and with neither no outcome is produced. -/
theorem check_victory_spec (mice : List MouseS) (cheeses : List CheeseS) :
    (check_victory mice cheeses = some Winner.CAT ↔ ∀ m ∈ mice, m.alive = false) ∧
    (check_victory mice cheeses = some Winner.MICE ↔
      ((∀ c ∈ cheeses, c.eaten = true) ∧ ∃ m ∈ mice, m.alive = true)) ∧
    ((∀ m ∈ mice, m.alive = false) ∧ (∀ c ∈ cheeses, c.eaten = true) →
      check_victory mice cheeses = some Winner.CAT) ∧
    ((∃ m ∈ mice, m.alive = true) ∧ (∃ c ∈ cheeses, c.eaten = false) →
      check_victory mice cheeses = none) := by
  have hm : mice.filter (·.alive) = [] ↔ ∀ m ∈ mice, m.alive = false := by
    rw [List.filter_eq_nil]
    simp
  have hc : cheeses.filter (fun c => !c.eaten) = [] ↔ ∀ c ∈ cheeses, c.eaten = true := by
    rw [List.filter_eq_nil]
    simp
  by_cases hA : ∀ m ∈ mice, m.alive = false
  case pos =>
    have hv : check_victory mice cheeses = some Winner.CAT := by
      unfold check_victory
      rw [if_pos (hm.mpr hA)]
    refine ⟨?_, ?_, fun _ => hv, ?_⟩
    · rw [hv]
      exact ⟨fun _ => hA, fun _ => rfl⟩
    · rw [hv]
      constructor
      · intro h
        simp at h
      · rintro ⟨-, m, hmem, hal⟩
        exact absurd (hA m hmem) (by simp [hal])
    · rintro ⟨⟨m, hmem, hal⟩, -⟩
      exact absurd (hA m hmem) (by simp [hal])
  case neg =>
    have h1 : ¬ mice.filter (·.alive) = [] := fun h => hA (hm.mp h)
    have hex : ∃ m ∈ mice, m.alive = true := by
      push_neg at hA
      obtain ⟨m, hmem, hal⟩ := hA
      exact ⟨m, hmem, by simpa using hal⟩
    by_cases hB : ∀ c ∈ cheeses, c.eaten = true
    case pos =>
      have hv : check_victory mice cheeses = some Winner.MICE := by
        unfold check_victory
        rw [if_neg h1, if_pos (hc.mpr hB)]
      refine ⟨?_, ?_, ?_, ?_⟩
      · rw [hv]
        constructor
        · intro h
          simp at h
        · intro h
          exact absurd h hA
      · rw [hv]
        exact ⟨fun _ => ⟨hB, hex⟩, fun _ => rfl⟩
      · rintro ⟨h, -⟩
        exact absurd h hA
      · rintro ⟨-, c, hmem, hun⟩
        exact absurd (hB c hmem) (by simp [hun])
    case neg =>
      have h2 : ¬ cheeses.filter (fun c => !c.eaten) = [] := fun h => hB (hc.mp h)
      have hv : check_victory mice cheeses = none := by
        unfold check_victory
        rw [if_neg h1, if_neg h2]
      refine ⟨?_, ?_, ?_, fun _ => hv⟩
      · rw [hv]
        constructor
        · intro h
          simp at h
        · intro h
          exact absurd h hA
      · rw [hv]
        constructor
        · intro h
          simp at h
        · rintro ⟨h, -⟩
          exact absurd h hB
      · rintro ⟨h, -⟩
        exact absurd h hA

/-- Non-vacuity check for `check_victory_spec`. -/
theorem check_victory_spec_holds :
    check_victory [⟨0, 0, false, none, false⟩] [⟨1, 1, true⟩] = some Winner.CAT :=
  (check_victory_spec _ _).2.2.1 ⟨by decide, by decide⟩

theorem consume_budget_zero (g : Grid) (doors : List (List Bool)) :
    ∀ p : List GCell, consume_budget g doors p 0 = [] := by
  intro p
  cases p with
  | nil => rfl
  | cons c rest =>
    obtain ⟨a, b⟩ := c
    rfl

theorem consume_budget_length (g : Grid) (doors : List (List Bool)) :
    ∀ (p : List GCell) (mp : Nat), (consume_budget g doors p mp).length ≤ mp := by
  intro p
  induction p with
  | nil => intro mp; simp [consume_budget]
  | cons c rest ih =>
    intro mp
    match mp with
    | 0 => simp [consume_budget]
    | mp + 1 =>
      obtain ⟨nx, ny⟩ := c
      unfold consume_budget
      split_ifs with h1 h2
      · have := ih (mp - 1)
        simp only [List.length_cons]
        omega
      · simp
      · have := ih mp
        simp only [List.length_cons]
        omega

/-- C2: predator planning spends its budget of 2 greedily along the path:
a leading closed door costs open-plus-move; otherwise one move is spent
and the second budget point handles the next cell the same way (opening a
door then exhausts the budget before stepping through); the emitted list
always has cost at most 2. -/
theorem plan_cat_budget_spec (g : Grid) (doors : List (List Bool)) :
    (∀ p : List GCell, (consume_budget g doors p 2).length ≤ 2) ∧
    (∀ (c : GCell) (rest : List GCell), closedDoor g doors c →
      consume_budget g doors (c :: rest) 2 =
        [Action.open_door c.1 c.2, Action.move c.1 c.2]) ∧
    (∀ c : GCell, ¬ closedDoor g doors c →
      consume_budget g doors [c] 2 = [Action.move c.1 c.2]) ∧
    (∀ (c c2 : GCell) (r : List GCell), ¬ closedDoor g doors c → closedDoor g doors c2 →
      consume_budget g doors (c :: c2 :: r) 2 =
        [Action.move c.1 c.2, Action.open_door c2.1 c2.2]) ∧
    (∀ (c c2 : GCell) (r : List GCell), ¬ closedDoor g doors c → ¬ closedDoor g doors c2 →
      consume_budget g doors (c :: c2 :: r) 2 =
        [Action.move c.1 c.2, Action.move c2.1 c2.2]) := by
  refine ⟨fun p => consume_budget_length g doors p 2, ?_, ?_, ?_, ?_⟩
  · rintro ⟨nx, ny⟩ rest ⟨hd, ho⟩
    unfold consume_budget
    rw [if_pos ⟨hd, ho⟩]
    simp [consume_budget_zero]
  · rintro ⟨nx, ny⟩ h
    unfold consume_budget
    rw [if_neg (by simpa [closedDoor] using h)]
    rfl
  · rintro ⟨nx, ny⟩ ⟨mx, my⟩ r h h2
    unfold consume_budget
    rw [if_neg (by simpa [closedDoor] using h)]
    conv_lhs => rw [consume_budget]
    rw [if_pos (by simpa [closedDoor] using h2)]
    simp
  · rintro ⟨nx, ny⟩ ⟨mx, my⟩ r h h2
    unfold consume_budget
    rw [if_neg (by simpa [closedDoor] using h)]
    conv_lhs => rw [consume_budget]
    rw [if_neg (by simpa [closedDoor] using h2)]
    simp [consume_budget_zero]

/-- Non-vacuity check for `plan_cat_budget_spec`. -/
theorem plan_cat_budget_spec_holds :
    consume_budget [[GridType.DOOR]] [[false]] [((0 : Int), (0 : Int))] 2 =
      [Action.open_door 0 0, Action.move 0 0] :=
  (plan_cat_budget_spec _ _).2.1 (0, 0) [] ⟨rfl, rfl⟩

theorem killMice_claims_sub (cx cy : Int) :
    ∀ (l : List (Nat × MouseS)) (cl : List (Nat × Nat)) (e : Nat × Nat),
      e ∈ (killMice cx cy l cl).2 → e ∈ cl := by
  intro l
  induction l with
  | nil => intro cl e h; exact h
  | cons im ms ih =>
    intro cl e h
    obtain ⟨i, m⟩ := im
    simp only [killMice] at h
    split_ifs at h with hcond
    · simp only at h
      have := ih _ e h
      exact (List.mem_filter.mp this).1
    · simp only at h
      exact ih _ e h

theorem killMice_get? (cx cy : Int) :
    ∀ (l : List (Nat × MouseS)) (cl : List (Nat × Nat)) (k : Nat),
      (killMice cx cy l cl).1.get? k = (l.get? k).map (fun im =>
        if im.2.alive = true ∧ im.2.x = cx ∧ im.2.y = cy then
          { im.2 with alive := false, target := none } else im.2) := by
  intro l
  induction l with
  | nil => intro cl k; rfl
  | cons im ms ih =>
    intro cl k
    obtain ⟨i, m⟩ := im
    cases k with
    | zero =>
      simp only [killMice]
      split_ifs with hcond <;> simp [hcond]
    | succ k =>
      simp only [killMice]
      split_ifs with hcond
      · exact ih _ k
      · exact ih _ k

theorem killMice_claims_not (cx cy : Int) :
    ∀ (l : List (Nat × MouseS)) (cl : List (Nat × Nat)) (i : Nat) (m : MouseS),
      (i, m) ∈ l → m.alive = true → m.x = cx → m.y = cy →
      ∀ e ∈ (killMice cx cy l cl).2, e.2 ≠ i := by
  intro l
  induction l with
  | nil => intro cl i m hmem; cases hmem
  | cons im ms ih =>
    intro cl i m hmem hal hx hy e he
    obtain ⟨j, m0⟩ := im
    rcases List.mem_cons.mp hmem with heq | htail
    · obtain ⟨h1, h2⟩ := Prod.mk.injEq .. ▸ heq
      subst h1
      subst h2
      simp only [killMice] at he
      rw [if_pos ⟨hal, hx, hy⟩] at he
      simp only at he
      have hsub := killMice_claims_sub cx cy ms _ e he
      have := (List.mem_filter.mp hsub).2
      simpa using this
    · simp only [killMice] at he
      split_ifs at he with hcond <;> simp only at he
      · exact ih _ i m htail hal hx hy e he
      · exact ih _ i m htail hal hx hy e he

/-- C4: whenever the predator executes a move onto the cell of an alive
evader — whether with no door-settle timer pending or through the
expired door-settle branch taken after an open-door action — that evader
ends dead, target-less and with no ledger entry naming it. -/
theorem capture_spec (s : GameState) (now : Int) (i : Nat) (x y : Int)
    (rest : List Action) (m : MouseS)
    (hc : s.curChar = some CurChar.cat)
    (hp : s.pending = Action.move x y :: rest)
    (ha : curAnimating s = false)
    (hd : ∀ t0, s.doorAnim = some t0 → ¬ now - t0 < ((300 / s.speedMult : Nat) : Int))
    (hm : s.mice.get? i = some m)
    (hal : m.alive = true) (hx : m.x = x) (hy : m.y = y) :
    (exec_next_move s now).2.mice.get? i =
      some { m with alive := false, target := none } ∧
    ∀ e ∈ (exec_next_move s now).2.claimed, e.2 ≠ i := by
  have hstep : (exec_next_move s now).2.mice =
        (killMice x y s.mice.enum s.claimed).1 ∧
      (exec_next_move s now).2.claimed =
        (killMice x y s.mice.enum s.claimed).2 := by
    unfold exec_next_move
    rw [hp]
    cases hdo : s.doorAnim with
    | none =>
      simp only [ha, Bool.false_eq_true, if_false]
      unfold exec_action
      rw [hc]
      exact ⟨rfl, rfl⟩
    | some t0 =>
      simp only [ha, Bool.false_eq_true, if_false]
      rw [if_neg (hd t0 hdo)]
      have hc' : ({ s with doorAnim := none } : GameState).curChar =
          some CurChar.cat := hc
      unfold exec_action
      rw [hc']
      exact ⟨rfl, rfl⟩
  constructor
  · rw [hstep.1, killMice_get?]
    rw [List.enum_get? s.mice i, hm]
    simp [hal, hx, hy]
  · rw [hstep.2]
    exact killMice_claims_not x y s.mice.enum s.claimed i m
      (enum_mem_of_get? hm) hal hx hy

theorem exec_action_mouse_alive (s : GameState) (now : Int) (j : Nat) (x y : Int)
    (rest : List Action) (hc : s.curChar = some (CurChar.mouse j)) :
    (exec_action s now (Action.move x y) rest).mice.map (·.alive) =
      s.mice.map (·.alive) := by
  have h1 : ∀ (l : List MouseS) (n : Nat),
      (updAt l n (fun m => { m with x := x, y := y, animating := true })).map (·.alive) =
        l.map (·.alive) :=
    fun l n =>
      updAt_map_eq l (·.alive) (fun m => { m with x := x, y := y, animating := true })
        (fun _ => rfl) n
  have h2 : ∀ (l : List MouseS) (n : Nat),
      (updAt l n (fun m => { m with target := none })).map (·.alive) = l.map (·.alive) :=
    fun l n =>
      updAt_map_eq l (·.alive) (fun m => { m with target := none }) (fun _ => rfl) n
  unfold exec_action
  rw [hc]
  simp only []
  split_ifs with hflag <;> simp [h1, h2]

/-- C10: a move executed with an evader as the mover never changes any
alive flag, even onto the predator's cell (capture detection runs only on
predator moves). -/
theorem evader_move_alive_frame (s : GameState) (now : Int) (j : Nat) (x y : Int)
    (rest : List Action)
    (hc : s.curChar = some (CurChar.mouse j))
    (hp : s.pending = Action.move x y :: rest) :
    (exec_next_move s now).2.mice.map (·.alive) = s.mice.map (·.alive) := by
  unfold exec_next_move
  rw [hp]
  by_cases ha : curAnimating s = true
  · simp [ha]
  · rw [Bool.not_eq_true] at ha
    cases hdo : s.doorAnim with
    | none =>
      simp only [ha, Bool.false_eq_true, if_false]
      exact exec_action_mouse_alive s now j x y rest hc
    | some t0 =>
      simp only [ha, Bool.false_eq_true, if_false]
      split_ifs with htime
      · rfl
      · exact exec_action_mouse_alive _ now j x y rest hc

/-- Non-vacuity check for `capture_spec`, exercising the expired
door-settle branch: the state carries `doorAnim = some (-500)` and the
move still executes and captures. -/
theorem capture_spec_holds :
    (exec_next_move stExecCatDoor 0).2.mice.get? 0 = some ⟨2, 3, false, none, false⟩ ∧
    ∀ e ∈ (exec_next_move stExecCatDoor 0).2.claimed, e.2 ≠ 0 :=
  capture_spec stExecCatDoor 0 0 2 3 [] ⟨2, 3, true, some 0, false⟩
    rfl rfl rfl
    (by
      intro t0 h
      have h' : some (-500 : Int) = some t0 := h
      have ht : t0 = -500 := (Option.some.inj h').symm
      subst ht
      decide)
    rfl rfl rfl rfl

/-- Non-vacuity check for `evader_move_alive_frame`. -/
theorem evader_move_alive_frame_holds :
    (exec_next_move stExecMouse 0).2.mice.map (·.alive) =
      stExecMouse.mice.map (·.alive) :=
  evader_move_alive_frame stExecMouse 0 0 1 1 [] rfl rfl

theorem find_nearest_aux_none (N : Nat) (g : Grid) (cx cy : Int) (posOf : α → GCell) :
    ∀ (rem : List α) (md : Option Nat),
      (∀ t ∈ rem, pathLen N g cx cy posOf t = 0) →
      find_nearest_aux N g cx cy posOf rem md none = none := by
  intro rem
  induction rem with
  | nil => intro md _; rfl
  | cons t ts ih =>
    intro md hall
    simp only [find_nearest_aux]
    split_ifs with hcond
    · exfalso
      obtain ⟨hne, -⟩ := hcond
      have h0 := hall t (List.mem_cons_self t ts)
      unfold pathLen at h0
      exact hne (List.length_eq_zero.mp h0)
    · exact ih md (fun u hu => hall u (List.mem_cons_of_mem t hu))

theorem near_inv_found (N : Nat) (g : Grid) (cx cy : Int) (posOf : α → GCell)
    (processed : List α) (md : Option Nat) (best : Option α) (t : α)
    (hinv : NearInv N g cx cy posOf processed md best)
    (hpos : 0 < pathLen N g cx cy posOf t)
    (hlt : ltInf (pathLen N g cx cy posOf t) md = true) :
    NearInv N g cx cy posOf (processed ++ [t]) (some (pathLen N g cx cy posOf t)) (some t) := by
  right
  refine ⟨pathLen N g cx cy posOf t, processed.length, t, rfl, rfl,
    List.get?_concat_length processed t, rfl, hpos, ?_, ?_⟩
  · intro j u hget hupos
    rcases Nat.lt_trichotomy j processed.length with hj | hj | hj
    · rw [List.get?_append hj] at hget
      rcases hinv with ⟨-, -, hall⟩ | ⟨n, i, t0, hmd, -, -, -, -, hmin, -⟩
      · exact absurd (hall u (List.get?_mem hget)) (by omega)
      · rw [hmd] at hlt
        have h1 : pathLen N g cx cy posOf t < n := by simpa [ltInf] using hlt
        exact le_of_lt (lt_of_lt_of_le h1 (hmin j u hget hupos))
    · subst hj
      rw [List.get?_concat_length] at hget
      injection hget with hget
      subst hget
      exact le_refl _
    · rw [List.get?_eq_none.mpr (by simp; omega)] at hget
      cases hget
  · intro j u hj hget hupos
    rw [List.get?_append hj] at hget
    rcases hinv with ⟨-, -, hall⟩ | ⟨n, i, t0, hmd, -, -, -, -, hmin, -⟩
    · exact absurd (hall u (List.get?_mem hget)) (by omega)
    · rw [hmd] at hlt
      have h1 : pathLen N g cx cy posOf t < n := by simpa [ltInf] using hlt
      exact lt_of_lt_of_le h1 (hmin j u hget hupos)

theorem near_inv_skip (N : Nat) (g : Grid) (cx cy : Int) (posOf : α → GCell)
    (processed : List α) (md : Option Nat) (best : Option α) (t : α)
    (hinv : NearInv N g cx cy posOf processed md best)
    (hcond : ¬ (0 < pathLen N g cx cy posOf t ∧
      ltInf (pathLen N g cx cy posOf t) md = true)) :
    NearInv N g cx cy posOf (processed ++ [t]) md best := by
  rcases hinv with ⟨hmd, hb, hall⟩ | ⟨n, i, t0, hmd, hb, hget, hlen, hnpos, hmin, hfirst⟩
  · left
    refine ⟨hmd, hb, ?_⟩
    intro u hu
    rcases List.mem_append.mp hu with hu | hu
    · exact hall u hu
    · have : u = t := by simpa using hu
      subst this
      by_contra hne
      exact hcond ⟨by omega, by rw [hmd]; rfl⟩
  · right
    obtain ⟨hi, -⟩ := List.get?_eq_some.mp hget
    refine ⟨n, i, t0, hmd, hb, ?_, hlen, hnpos, ?_, ?_⟩
    · rw [List.get?_append hi]
      exact hget
    · intro j u hjget hupos
      rcases Nat.lt_trichotomy j processed.length with hj | hj | hj
      · rw [List.get?_append hj] at hjget
        exact hmin j u hjget hupos
      · subst hj
        rw [List.get?_concat_length] at hjget
        injection hjget with hjget
        subst hjget
        rw [hmd] at hcond
        by_contra hlt
        push_neg at hlt
        exact hcond ⟨hupos, by simp only [ltInf, decide_eq_true_eq]; omega⟩
      · rw [List.get?_eq_none.mpr (by simp; omega)] at hjget
        cases hjget
    · intro j u hj hjget hupos
      have hj2 : j < processed.length := Nat.lt_trans hj hi
      rw [List.get?_append hj2] at hjget
      exact hfirst j u hj hjget hupos

theorem find_nearest_aux_spec (N : Nat) (g : Grid) (cx cy : Int) (posOf : α → GCell) :
    ∀ (rem processed : List α) (md : Option Nat) (best : Option α),
      NearInv N g cx cy posOf processed md best →
      (find_nearest_aux N g cx cy posOf rem md best = none →
        ∀ t ∈ processed ++ rem, pathLen N g cx cy posOf t = 0) ∧
      (∀ r, find_nearest_aux N g cx cy posOf rem md best = some r →
        NearSpec N g cx cy posOf (processed ++ rem) r) := by
  intro rem
  induction rem with
  | nil =>
    intro processed md best hinv
    constructor
    · intro hres t ht
      simp only [List.append_nil] at ht
      rcases hinv with ⟨-, hb, hall⟩ | ⟨n, i, t0, -, hb, -⟩
      · exact hall t ht
      · rw [find_nearest_aux, hb] at hres
        cases hres
    · intro r hres
      rw [find_nearest_aux] at hres
      rcases hinv with ⟨-, hb, -⟩ | ⟨n, i, t0, -, hb, hget, hlen, hnpos, hmin, hfirst⟩
      · rw [hb] at hres
        cases hres
      · rw [hb] at hres
        injection hres with hr
        subst hr
        refine ⟨i, by simpa using hget, by omega, ?_, ?_⟩
        · intro j u hjget hupos
          rw [hlen]
          exact hmin j u (by simpa using hjget) hupos
        · intro j u hj hjget hupos
          rw [hlen]
          exact hfirst j u hj (by simpa using hjget) hupos
  | cons t ts ih =>
    intro processed md best hinv
    have hplen : (bfs_pathfind N g cx cy (posOf t).1 (posOf t).2).length =
        pathLen N g cx cy posOf t := rfl
    have happ : (processed ++ [t]) ++ ts = processed ++ t :: ts := by
      simp
    by_cases hcond : (bfs_pathfind N g cx cy (posOf t).1 (posOf t).2) ≠ [] ∧
        ltInf (bfs_pathfind N g cx cy (posOf t).1 (posOf t).2).length md = true
    · have hstep : find_nearest_aux N g cx cy posOf (t :: ts) md best =
          find_nearest_aux N g cx cy posOf ts
            (some (bfs_pathfind N g cx cy (posOf t).1 (posOf t).2).length) (some t) := by
        simp only [find_nearest_aux]
        rw [if_pos hcond]
      have hpos : 0 < pathLen N g cx cy posOf t := by
        rw [← hplen]
        have := hcond.1
        cases hh : (bfs_pathfind N g cx cy (posOf t).1 (posOf t).2) with
        | nil => exact absurd hh this
        | cons a l => simp
      have hinv' := near_inv_found N g cx cy posOf processed md best t hinv hpos
        (by rw [← hplen] at *; exact hcond.2)
      have H := ih (processed ++ [t]) _ _ hinv'
      rw [happ] at H
      rw [hstep]
      exact H
    · have hstep : find_nearest_aux N g cx cy posOf (t :: ts) md best =
          find_nearest_aux N g cx cy posOf ts md best := by
        simp only [find_nearest_aux]
        rw [if_neg hcond]
      have hcond' : ¬ (0 < pathLen N g cx cy posOf t ∧
          ltInf (pathLen N g cx cy posOf t) md = true) := by
        rintro ⟨h1, h2⟩
        apply hcond
        constructor
        · intro hh
          rw [← hplen, hh] at h1
          simp at h1
        · rw [hplen]
          exact h2
      have hinv' := near_inv_skip N g cx cy posOf processed md best t hinv hcond'
      have H := ih (processed ++ [t]) _ _ hinv'
      rw [happ] at H
      rw [hstep]
      exact H

/-- C6: nearest-target selection returns the candidate with the strictly
smallest non-empty BFS path length, keeping the first encountered on
ties, and returns nothing when no candidate has a non-empty path. -/
theorem find_nearest_target_spec (N : Nat) (g : Grid) (cx cy : Int)
    (ts : List α) (posOf : α → GCell) :
    (find_nearest_target N g cx cy ts posOf = none ↔
      ∀ t ∈ ts, pathLen N g cx cy posOf t = 0) ∧
    (∀ r, find_nearest_target N g cx cy ts posOf = some r →
      NearSpec N g cx cy posOf ts r) := by
  have H := find_nearest_aux_spec N g cx cy posOf ts [] none none
    (Or.inl ⟨rfl, rfl, by simp⟩)
  simp only [List.nil_append] at H
  refine ⟨⟨H.1, ?_⟩, H.2⟩
  intro hall
  exact find_nearest_aux_none N g cx cy posOf ts none hall

/-- Non-vacuity check for `find_nearest_target_spec`. -/
theorem find_nearest_target_spec_holds :
    NearSpec 3 g3 0 0 (fun _ => ((1 : Int), (0 : Int))) [0] (0 : Nat) :=
  (find_nearest_target_spec 3 g3 0 0 [0] (fun _ => ((1 : Int), (0 : Int)))).2 0 (by decide)

theorem find_nearest_aux_mem (N : Nat) (g : Grid) (cx cy : Int) (posOf : α → GCell) :
    ∀ (rem : List α) (md : Option Nat) (best : Option α) (r : α),
      find_nearest_aux N g cx cy posOf rem md best = some r →
      best = some r ∨ r ∈ rem := by
  intro rem
  induction rem with
  | nil =>
    intro md best r h
    rw [find_nearest_aux] at h
    exact Or.inl h
  | cons t ts ih =>
    intro md best r h
    simp only [find_nearest_aux] at h
    split_ifs at h with hcond
    · rcases ih _ _ r h with h1 | h2
      · injection h1 with h1
        exact Or.inr (h1 ▸ List.mem_cons_self t ts)
      · exact Or.inr (List.mem_cons_of_mem t h2)
    · rcases ih _ _ r h with h1 | h2
      · exact Or.inl h1
      · exact Or.inr (List.mem_cons_of_mem t h2)

theorem find_nearest_target_mem (N : Nat) (g : Grid) (cx cy : Int) (posOf : α → GCell)
    (ts : List α) (r : α) (h : find_nearest_target N g cx cy ts posOf = some r) :
    r ∈ ts := by
  rcases find_nearest_aux_mem N g cx cy posOf ts none none r h with h1 | h2
  · cases h1
  · exact h2

theorem plan_mouse_claims (s : GameState) (i : Nat) :
    (plan_mouse_turn s i).2.claimed = s.claimed ∨
    ∃ m ic, s.mice.get? i = some m ∧
      find_nearest_unclaimed_cheese s.grid s.cheeses s.claimed m i = some ic ∧
      (plan_mouse_turn s i).2.claimed = setClaim s.claimed ic.1 i := by
  unfold plan_mouse_turn
  cases hm : s.mice.get? i with
  | none => left; rfl
  | some m =>
    dsimp only
    by_cases hal : m.alive = false
    · rw [if_pos hal]
      left
      rfl
    · rw [if_neg hal]
      cases hfn : find_nearest_unclaimed_cheese s.grid s.cheeses s.claimed m i with
      | none => left; rfl
      | some ic =>
        right
        refine ⟨m, ic, rfl, hfn, ?_⟩
        dsimp only
        cases hbfs : bfs_pathfind GRID_SIZE s.grid m.x m.y ic.2.x ic.2.y with
        | nil => rfl
        | cons hd tl =>
          obtain ⟨nx, ny⟩ := hd
          dsimp only
          split_ifs with hdoor <;> rfl

/-- C5: while some uneaten item is unclaimed, the candidate set excludes
items claimed by a different evader (own claims stay eligible), the
selected target is never an item claimed by another evader, fallback to
the full uneaten set happens only from an empty filtered set, and the
claim the planning cycle writes respects the same bound. -/
theorem evader_claim_spec (g : Grid) (cheeses : List CheeseS) (cl : List (Nat × Nat))
    (m : MouseS) (mi : Nat)
    (h : ∃ ci c, cheeses.get? ci = some c ∧ c.eaten = false ∧ lookupClaim cl ci = none) :
    (∀ ic, find_nearest_unclaimed_cheese g cheeses cl m mi = some ic →
      lookupClaim cl ic.1 = none ∨ lookupClaim cl ic.1 = some mi) ∧
    (∀ ic ∈ available_cheese cheeses cl mi,
      lookupClaim cl ic.1 = none ∨ lookupClaim cl ic.1 = some mi) ∧
    (available_cheese cheeses cl mi = [] →
      find_nearest_unclaimed_cheese g cheeses cl m mi =
        find_nearest_target GRID_SIZE g m.x m.y (uneaten_list cheeses)
          (fun ic => (ic.2.x, ic.2.y))) ∧
    (∀ (s : GameState) (a : List Action) (s' : GameState),
      s.grid = g → s.cheeses = cheeses → s.claimed = cl →
      s.mice.get? mi = some m → m.alive = true →
      plan_mouse_turn s mi = (a, s') →
      s'.claimed = cl ∨ ∃ ic : Nat × CheeseS, s'.claimed = setClaim cl ic.1 mi ∧
        (lookupClaim cl ic.1 = none ∨ lookupClaim cl ic.1 = some mi)) := by
  have havail : ∀ ic ∈ available_cheese cheeses cl mi,
      lookupClaim cl ic.1 = none ∨ lookupClaim cl ic.1 = some mi := by
    intro ic hic
    have := (List.mem_filter.mp hic).2
    simpa using this
  have hne : available_cheese cheeses cl mi ≠ [] := by
    obtain ⟨ci, c, hget, hce, hcl⟩ := h
    have h1 : (ci, c) ∈ uneaten_list cheeses :=
      List.mem_filter.mpr ⟨enum_mem_of_get? hget, by simp [hce]⟩
    have h2 : (ci, c) ∈ available_cheese cheeses cl mi :=
      List.mem_filter.mpr ⟨h1, by simp [hcl]⟩
    exact List.ne_nil_of_mem h2
  have hsel : ∀ ic, find_nearest_unclaimed_cheese g cheeses cl m mi = some ic →
      lookupClaim cl ic.1 = none ∨ lookupClaim cl ic.1 = some mi := by
    intro ic hic
    simp only [find_nearest_unclaimed_cheese] at hic
    rw [if_neg hne] at hic
    exact havail ic (find_nearest_target_mem _ _ _ _ _ _ _ hic)
  refine ⟨hsel, havail, ?_, ?_⟩
  · intro hempty
    simp only [find_nearest_unclaimed_cheese]
    rw [if_pos hempty]
  · intro s a s' hg hch hcl hmice halive hplan
    have hres : s'.claimed = (plan_mouse_turn s mi).2.claimed := by rw [hplan]
    rcases plan_mouse_claims s mi with hA | ⟨m0, ic, hm0, hfn, heq⟩
    · left
      rw [hres, hA, hcl]
    · right
      rw [hmice] at hm0
      injection hm0 with hm0
      subst hm0
      rw [hg, hch, hcl] at hfn
      exact ⟨ic, by rw [hres, heq, hcl], hsel ic hfn⟩

theorem bfs_pathfind_self (N : Nat) (g : Grid) (x y : Int) :
    bfs_pathfind N g x y x y = [] := by
  unfold bfs_pathfind
  rw [bfsAux]
  simp

theorem find_nearest_all_same (N : Nat) (g : Grid) (cx cy : Int) (ts : List α)
    (posOf : α → GCell) (hall : ∀ t ∈ ts, posOf t = (cx, cy)) :
    find_nearest_target N g cx cy ts posOf = none := by
  refine (find_nearest_target_spec N g cx cy ts posOf).1.mpr ?_
  intro t ht
  unfold pathLen
  rw [hall t ht]
  simp [bfs_pathfind_self]

/-- C9: a candidate sharing the agent's cell has an empty BFS path and is
treated like an unreachable one, so it is never selected; an agent all of
whose candidates share its cell gets no target and an empty turn. -/
theorem same_cell_no_target :
    (∀ (N : Nat) (g : Grid) (x y : Int), bfs_pathfind N g x y x y = []) ∧
    (∀ (N : Nat) (g : Grid) (cx cy : Int) (ts : List α) (posOf : α → GCell),
      (∀ t ∈ ts, posOf t = (cx, cy)) →
      find_nearest_target N g cx cy ts posOf = none) ∧
    (∀ s : GameState,
      (∀ im ∈ s.mice.enum, im.2.alive = true → (im.2.x, im.2.y) = (s.catX, s.catY)) →
      plan_cat_turn s = ([], none)) := by
  refine ⟨fun N g x y => bfs_pathfind_self N g x y,
    fun N g cx cy ts posOf hall => find_nearest_all_same N g cx cy ts posOf hall, ?_⟩
  intro s hmice
  unfold plan_cat_turn
  by_cases halive : s.mice.enum.filter (fun im => im.2.alive) = []
  · rw [if_pos halive]
  · rw [if_neg halive]
    have hnone : find_nearest_target GRID_SIZE s.grid s.catX s.catY
        (s.mice.enum.filter (fun im => im.2.alive))
        (fun im => (im.2.x, im.2.y)) = none := by
      apply find_nearest_all_same
      intro t ht
      have hmem := List.mem_filter.mp ht
      exact hmice t hmem.1 (by simpa using hmem.2)
    rw [hnone]

/-- Non-vacuity check for `evader_claim_spec`. -/
theorem evader_claim_spec_holds :
    lookupClaim [] 0 = none ∨ lookupClaim [] 0 = some 0 :=
  (evader_claim_spec g3 [⟨1, 1, false⟩] [] ⟨1, 0, true, none, false⟩ 0
    ⟨0, ⟨1, 1, false⟩, rfl, rfl, rfl⟩).1 (0, ⟨1, 1, false⟩) (by decide)

/-- Non-vacuity check for `same_cell_no_target`. -/
theorem same_cell_no_target_holds : plan_cat_turn stSame = ([], none) :=
  (@same_cell_no_target Unit).2.2 stSame (by decide)

theorem exec_true_eq (s : GameState) (t : Int) (s' : GameState)
    (h : exec_next_move s t = (true, s')) : s' = s := by
  unfold exec_next_move at h
  cases hp : s.pending with
  | nil =>
    rw [hp] at h
    injection h with h1 h2
    exact h2.symm
  | cons a rest =>
    rw [hp] at h
    dsimp only at h
    split_ifs at h with h1
    · injection h with h1 h2
      cases h1
    · cases hdo : s.doorAnim with
      | none =>
        rw [hdo] at h
        injection h with h1 h2
        cases h1
      | some t0 =>
        rw [hdo] at h
        dsimp only at h
        split_ifs at h with h2
        · injection h with h1 h2
          cases h1
        · injection h with h1 h2
          cases h1

theorem exec_action_phase (s : GameState) (t : Int) (a : Action) (rest : List Action) :
    (exec_action s t a rest).phase = s.phase := by
  unfold exec_action
  cases a with
  | open_door x y => rfl
  | move x y =>
    cases hc : s.curChar with
    | none => rfl
    | some cc =>
      cases cc with
      | cat => rfl
      | mouse i => rfl

theorem exec_phase (s : GameState) (t : Int) :
    (exec_next_move s t).2.phase = s.phase := by
  unfold exec_next_move
  cases hp : s.pending with
  | nil => rfl
  | cons a rest =>
    dsimp only
    split_ifs with h1
    · rfl
    · cases hdo : s.doorAnim with
      | none => exact exec_action_phase s t a rest
      | some t0 =>
        dsimp only
        split_ifs with h2
        · rfl
        · exact exec_action_phase _ t a rest

theorem exec_inv (s : GameState) (t : Int) (h : SchedInv s) :
    SchedInv (exec_next_move s t).2 := by
  cases hp : s.pending with
  | nil =>
    have : exec_next_move s t = (true, s) := by
      unfold exec_next_move
      rw [hp]
    rw [this]
    exact h
  | cons a rest =>
    have hph := exec_phase s t
    refine ⟨?_, ?_, ?_⟩
    · intro hac
      rw [hph] at hac
      have := h.1 hac
      rw [hp] at this
      cases this
    · intro ham
      rw [hph] at ham
      have := (h.2.1 ham).1
      rw [hp] at this
      cases this
    · intro ham
      rw [hph] at ham
      have := (h.2.2 ham).1
      rw [hp] at this
      cases this

theorem schedInv_other (s : GameState)
    (h1 : s.phase ≠ Phase.ANNOUNCE_CAT)
    (h2 : s.phase ≠ Phase.ANNOUNCE_MOUSE1)
    (h3 : s.phase ≠ Phase.ANNOUNCE_MOUSE2) : SchedInv s :=
  ⟨fun h => absurd h h1, fun h => absurd h h2, fun h => absurd h h3⟩

theorem afterCat_inv (s : GameState) (hp : s.pending = []) :
    SchedInv (afterCatPhase s) := by
  unfold afterCatPhase
  split_ifs with h1 h2
  · refine ⟨?_, ?_, ?_⟩
    · intro h
      cases h
    · intro _
      exact ⟨hp, h1.2⟩
    · intro h
      cases h
  · refine ⟨?_, ?_, ?_⟩
    · intro h
      cases h
    · intro h
      cases h
    · intro _
      exact ⟨hp, h2.2⟩
  · refine ⟨?_, ?_, ?_⟩
    · intro _
      exact hp
    · intro h
      cases h
    · intro h
      cases h

theorem afterMouse1_inv (s : GameState) (hp : s.pending = []) :
    SchedInv (afterMouse1Phase s) := by
  unfold afterMouse1Phase
  split_ifs with h1
  · refine ⟨?_, ?_, ?_⟩
    · intro h
      cases h
    · intro h
      cases h
    · intro _
      exact ⟨hp, h1.2⟩
  · refine ⟨?_, ?_, ?_⟩
    · intro _
      exact hp
    · intro h
      cases h
    · intro h
      cases h

theorem schedInv_set_last (s : GameState) (t : Int) (h : SchedInv s) :
    SchedInv { s with lastTurnTime := t } :=
  ⟨h.1, h.2.1, h.2.2⟩

theorem dispatch_inv (s : GameState) (t : Int) (h : SchedInv s) :
    SchedInv (dispatch s t) := by
  unfold dispatch
  cases hph : s.phase with
  | ANNOUNCE_CAT =>
    dsimp only
    refine schedInv_other _ ?_ ?_ ?_ <;> simp
  | EXECUTE_CAT =>
    dsimp only
    split_ifs with hpend
    · exact afterCat_inv _ hpend
    · refine schedInv_other _ ?_ ?_ ?_ <;> simp
  | EXECUTING_CAT =>
    dsimp only
    split_ifs with hcond
    · exact schedInv_set_last _ _ (afterCat_inv _ hcond.1)
    · refine schedInv_other _ ?_ ?_ ?_ <;> simp [hph]
  | ANNOUNCE_MOUSE1 =>
    dsimp only
    split_ifs with h1 h2
    · refine schedInv_other _ ?_ ?_ ?_ <;> simp
    · refine ⟨?_, ?_, ?_⟩
      · intro hh
        cases hh
      · intro hh
        cases hh
      · intro _
        exact ⟨(h.2.1 hph).1, h2.2⟩
    · refine ⟨?_, ?_, ?_⟩
      · intro _
        exact (h.2.1 hph).1
      · intro hh
        cases hh
      · intro hh
        cases hh
  | EXECUTE_MOUSE1 =>
    dsimp only
    split_ifs with hg hpend hpend2
    · exact afterMouse1_inv _ hpend
    · refine schedInv_other _ ?_ ?_ ?_ <;> simp
    · exact afterMouse1_inv _ hpend2
    · refine schedInv_other _ ?_ ?_ ?_ <;> simp
  | EXECUTING_MOUSE1 =>
    dsimp only
    split_ifs with hcond
    · exact schedInv_set_last _ _ (afterMouse1_inv _ hcond.1)
    · refine schedInv_other _ ?_ ?_ ?_ <;> simp [hph]
  | ANNOUNCE_MOUSE2 =>
    dsimp only
    split_ifs with h1
    · refine schedInv_other _ ?_ ?_ ?_ <;> simp
    · refine ⟨?_, ?_, ?_⟩
      · intro _
        exact (h.2.2 hph).1
      · intro hh
        cases hh
      · intro hh
        cases hh
  | EXECUTE_MOUSE2 =>
    dsimp only
    split_ifs with hg hpend hpend2
    · refine ⟨?_, ?_, ?_⟩
      · intro _
        exact hpend
      · intro hh
        cases hh
      · intro hh
        cases hh
    · refine schedInv_other _ ?_ ?_ ?_ <;> simp
    · refine ⟨?_, ?_, ?_⟩
      · intro _
        exact hpend2
      · intro hh
        cases hh
      · intro hh
        cases hh
    · refine schedInv_other _ ?_ ?_ ?_ <;> simp
  | EXECUTING_MOUSE2 =>
    dsimp only
    split_ifs with hcond
    · refine ⟨?_, ?_, ?_⟩
      · intro _
        exact hcond.1
      · intro hh
        cases hh
      · intro hh
        cases hh
    · refine schedInv_other _ ?_ ?_ ?_ <;> simp [hph]

theorem gridAt_set2_ne (m : Grid) (a b : Int) (v : GridType) (x y : Int)
    (h : x.toNat ≠ a.toNat ∨ y.toNat ≠ b.toNat) :
    gridAt (set2 m a b v) x y = gridAt m x y := by
  unfold gridAt set2
  by_cases hy : y.toNat = b.toNat
  · rcases h with hx | hyy
    · rw [hy, updAt_get?_eq]
      cases hrow : m.get? b.toNat with
      | none => rfl
      | some row =>
        show ((updAt row a.toNat fun _ => v).get? x.toNat).getD GridType.WALL = _
        rw [updAt_get?_ne row _ a.toNat x.toNat (fun hh => hx hh.symm)]
        rfl
    · exact absurd hy hyy
  · rw [updAt_get?_ne m _ b.toNat y.toNat (fun hh => hy hh.symm)]

theorem evenWall_set2 (m : Grid) (a b : Int) (v : GridType)
    (hm : EvenWall m) (hg : GoodCell a b) : EvenWall (set2 m a b v) := by
  intro x y hx hy
  rw [gridAt_set2_ne]
  · exact hm x y hx hy
  · rcases hg with ⟨ha1, ha2⟩ | ⟨hb1, hb2⟩
    · left
      omega
    · right
      omega

theorem gridAt_replicate_wall (N : Nat) (x y : Int) :
    gridAt (List.replicate N (List.replicate N GridType.WALL)) x y = GridType.WALL := by
  unfold gridAt
  cases hrow : (List.replicate N (List.replicate N GridType.WALL)).get? y.toNat with
  | none => rfl
  | some row =>
    have hr : row = List.replicate N GridType.WALL :=
      List.eq_of_mem_replicate (List.get?_mem hrow)
    subst hr
    cases hcell : (List.replicate N GridType.WALL).get? x.toNat with
    | none => simp
    | some c =>
      have hc : c = GridType.WALL := List.eq_of_mem_replicate (List.get?_mem hcell)
      simp [hcell, hc]

theorem getD_mod_mem (l : List β) (k : Nat) (z : β) (h : l ≠ []) :
    l.getD (k % l.length) z ∈ l := by
  have hlen : 0 < l.length := List.length_pos.mpr h
  have hlt : k % l.length < l.length := Nat.mod_lt k hlen
  rw [List.getD_eq_get _ _ hlt]
  exact List.get_mem l _ _

theorem oddCell_mk (a b : Int) (h1 : a % 2 = 1) (h2 : b % 2 = 1)
    (h3 : 1 ≤ a) (h4 : 1 ≤ b) : OddCell (a, b) := by
  exact ⟨h1, h2, h3, h4⟩

theorem mem_dfsNeighbors (N : Nat) (maze : Grid) (x y : Int)
    (e : Int × Int × Int × Int) (he : e ∈ dfsNeighbors N maze x y) :
    ∃ d ∈ dfsDirs, e = (x + d.1, y + d.2, d.1, d.2) ∧
      1 ≤ x + d.1 ∧ 1 ≤ y + d.2 := by
  obtain ⟨d, hd, hsome⟩ := List.mem_filterMap.mp he
  have hsome' : (if 1 ≤ x + d.1 ∧ x + d.1 < (N : Int) - 1 ∧ 1 ≤ y + d.2 ∧
      y + d.2 < (N : Int) - 1 ∧ gridAt maze (x + d.1) (y + d.2) = GridType.WALL then
      some (x + d.1, y + d.2, d.1, d.2) else none) = some e := hsome
  refine ⟨d, hd, ?_⟩
  split_ifs at hsome' with hcond
  injection hsome' with hsome'
  exact ⟨hsome'.symm, hcond.1, hcond.2.2.1⟩

theorem dfsCarveLoop_evenWall (N : Nat) :
    ∀ (fuel : Nat) (ds : List Nat) (stack : List GCell) (maze : Grid),
      (∀ c ∈ stack, OddCell c) → EvenWall maze →
      EvenWall (dfsCarveLoop N fuel ds stack maze) := by
  intro fuel
  induction fuel with
  | zero =>
    intro ds stack maze _ hm
    cases stack <;> exact hm
  | succ fuel ih =>
    intro ds stack maze hstack hm
    cases stack with
    | nil => exact hm
    | cons c rest =>
      obtain ⟨x, y⟩ := c
      have hxy : OddCell (x, y) := hstack (x, y) (List.mem_cons_self _ _)
      obtain ⟨hx2, hy2, hx1, hy1⟩ := hxy
      dsimp only at hx2 hy2 hx1 hy1
      have hrest : ∀ c ∈ (x, y) :: rest, OddCell c := hstack
      simp only [dfsCarveLoop]
      split_ifs with hnbs
      · exact ih ds rest maze (fun c hc => hstack c (List.mem_cons_of_mem _ hc)) hm
      · obtain ⟨d, hdmem, hshape, hb1, hb2⟩ :=
          mem_dfsNeighbors N maze x y _ (getD_mod_mem _ _ _ hnbs)
        rw [hshape]
        dsimp only
        simp only [dfsDirs, List.mem_cons, List.not_mem_nil, or_false] at hdmem
        rcases hdmem with rfl | rfl | rfl | rfl <;> dsimp only at hb1 hb2 ⊢ <;>
            refine ih ds.tail _ _ ?_ (evenWall_set2 _ _ _ _
              (evenWall_set2 _ _ _ _ hm (by unfold GoodCell; norm_num; omega))
              (by unfold GoodCell; norm_num; omega)) <;>
          intro c hc <;>
          rcases List.mem_cons.mp hc with rfl | hc
        · exact oddCell_mk _ _ (by omega) (by omega) hb1 hb2
        · exact hrest c hc
        · exact oddCell_mk _ _ (by omega) (by omega) hb1 hb2
        · exact hrest c hc
        · exact oddCell_mk _ _ (by omega) (by omega) hb1 hb2
        · exact hrest c hc
        · exact oddCell_mk _ _ (by omega) (by omega) hb1 hb2
        · exact hrest c hc

theorem braidAt_even_noop (maze : Grid) (x y : Int)
    (hm : EvenWall maze) (hx : x % 2 = 0) (hy : y % 2 = 0) :
    braidAt maze x y = maze := by
  unfold braidAt
  have hfind : dirs.find? (fun d =>
      (gridAt maze (x + d.1) (y + d.2) == GridType.WALL) &&
      (gridAt maze (x + d.1 * 2) (y + d.2 * 2) == GridType.PATH)) = none := by
    rw [List.find?_eq_none]
    intro d _
    have hwall := hm (x + d.1 * 2) (y + d.2 * 2) (by omega) (by omega)
    simp [hwall]
  rw [hfind]

theorem braid_even_noop (N : Nat) :
    ∀ (bs : List (Nat × Nat)) (maze : Grid), EvenWall maze → braid N bs maze = maze := by
  intro bs
  induction bs with
  | nil => intro maze _; rfl
  | cons b bs ih =>
    intro maze hm
    simp only [braid]
    rw [braidAt_even_noop maze _ _ hm (by omega) (by omega)]
    exact ih maze hm

theorem dfs_carve_evenWall (N : Nat) (ds : List Nat) : EvenWall (dfs_carve N ds) := by
  unfold dfs_carve
  apply dfsCarveLoop_evenWall
  · intro c hc
    have : c = ((1 : Int), (1 : Int)) := by simpa using hc
    subst this
    exact oddCell_mk 1 1 (by decide) (by decide) (by decide) (by decide)
  · apply evenWall_set2
    · intro x y hx hy
      exact gridAt_replicate_wall N x y
    · left
      exact ⟨by decide, by decide⟩

theorem trav_iff (N : Nat) (g : Grid) (c : GCell) :
    trav N g c = true ↔ inB N c = true ∧ gridAt g c.1 c.2 ≠ GridType.WALL := by
  simp [trav]

theorem adjB_cadd (c : GCell) (d : GCell) (hd : d ∈ dirs) :
    adjB c (cadd c d) = true := by
  simp only [adjB, cadd, decide_eq_true_eq]
  have h1 : c.1 + d.1 - c.1 = d.1 := by ring
  have h2 : c.2 + d.2 - c.2 = d.2 := by ring
  rw [h1, h2]
  exact hd

theorem adjB_exists (a b : GCell) (h : adjB a b = true) :
    ∃ d ∈ dirs, b = cadd a d := by
  simp only [adjB, decide_eq_true_eq] at h
  refine ⟨(b.1 - a.1, b.2 - a.2), h, ?_⟩
  obtain ⟨b1, b2⟩ := b
  obtain ⟨a1, a2⟩ := a
  simp only [cadd]
  rw [Prod.mk.injEq]
  exact ⟨by ring, by ring⟩

theorem walkOk_append (N : Nat) (g : Grid) :
    ∀ (p : List GCell) (s c : GCell),
      walkOk N g s (p ++ [c]) =
        (walkOk N g s p && adjB (p.getLastD s) c && trav N g c) := by
  intro p
  induction p with
  | nil =>
    intro s c
    simp [walkOk]
  | cons a p ih =>
    intro s c
    simp only [List.cons_append, walkOk, List.append_eq, ih, List.getLastD_cons,
      Bool.and_assoc]

theorem getLastD_snoc (p : List GCell) (c s : GCell) : (p ++ [c]).getLastD s = c := by
  simp [List.getLastD_eq_getLast?, List.getLast?_concat]

theorem reaches_nil_iff (N : Nat) (g : Grid) (s z : GCell) :
    Reaches N g s [] z ↔ z = s := by
  constructor
  · rintro ⟨-, h⟩
    exact h.symm
  · intro h
    exact ⟨rfl, h.symm⟩

theorem reaches_snoc_iff (N : Nat) (g : Grid) (s : GCell) (p : List GCell) (c z : GCell) :
    Reaches N g s (p ++ [c]) z ↔
      (∃ m, Reaches N g s p m ∧ adjB m c = true ∧ trav N g c = true) ∧ z = c := by
  unfold Reaches
  rw [walkOk_append, getLastD_snoc]
  constructor
  · rintro ⟨hw, rfl⟩
    simp only [Bool.and_eq_true] at hw
    obtain ⟨⟨h1, h2⟩, h3⟩ := hw
    exact ⟨⟨p.getLastD s, ⟨h1, rfl⟩, h2, h3⟩, rfl⟩
  · rintro ⟨⟨m, ⟨hwp, hlast⟩, hadj, htrav⟩, rfl⟩
    refine ⟨?_, rfl⟩
    simp only [Bool.and_eq_true]
    exact ⟨⟨hwp, hlast ▸ hadj⟩, htrav⟩

theorem reaches_snoc_intro (N : Nat) (g : Grid) (s : GCell) (p : List GCell)
    (m c : GCell) (h : Reaches N g s p m) (hadj : adjB m c = true)
    (htrav : trav N g c = true) : Reaches N g s (p ++ [c]) c :=
  (reaches_snoc_iff N g s p c c).mpr ⟨⟨m, h, hadj, htrav⟩, rfl⟩

theorem reaches_decomp (N : Nat) (g : Grid) (s : GCell) (w : List GCell) (z : GCell)
    (h : Reaches N g s w z) (hne : w ≠ []) :
    ∃ w' m, w = w' ++ [z] ∧ Reaches N g s w' m ∧ adjB m z = true ∧
      trav N g z = true := by
  obtain ⟨w', c, rfl⟩ : ∃ w' c, w = w' ++ [c] :=
    ⟨w.dropLast, w.getLast hne, (List.dropLast_append_getLast hne).symm⟩
  rw [reaches_snoc_iff] at h
  obtain ⟨⟨m, hm, hadj, htrav⟩, rfl⟩ := h
  exact ⟨w', m, rfl, hm, hadj, htrav⟩

theorem expand_spec (N : Nat) (g : Grid) (x y : Int) (path : List GCell) :
    ∀ (D : List GCell) (q0 : List Entry) (v0 : List GCell),
      ∃ ext : List Entry,
        (D.foldl (expandDir N g x y path) (q0, v0)).1 = q0 ++ ext ∧
        (D.foldl (expandDir N g x y path) (q0, v0)).2 = v0 ++ ext.map (·.1) ∧
        (∀ e ∈ ext, (∃ d ∈ D, e.1 = (x + d.1, y + d.2)) ∧ e.2 = path ++ [e.1] ∧
          trav N g e.1 = true ∧ e.1 ∉ v0) ∧
        (ext.map (·.1)).Nodup ∧
        (∀ d ∈ D, trav N g (x + d.1, y + d.2) = true →
          (x + d.1, y + d.2) ∈ (D.foldl (expandDir N g x y path) (q0, v0)).2) := by
  intro D
  induction D with
  | nil =>
    intro q0 v0
    exact ⟨[], by simp, by simp, by simp, by simp, by simp⟩
  | cons d D ih =>
    intro q0 v0
    by_cases hc : inB N (x + d.1, y + d.2) = true ∧ (x + d.1, y + d.2) ∉ v0 ∧
        gridAt g (x + d.1) (y + d.2) ≠ GridType.WALL
    · have hstep : (d :: D).foldl (expandDir N g x y path) (q0, v0) =
          D.foldl (expandDir N g x y path)
            (q0 ++ [((x + d.1, y + d.2), path ++ [(x + d.1, y + d.2)])],
              v0 ++ [(x + d.1, y + d.2)]) := by
        rw [List.foldl_cons]
        congr 1
        simp only [expandDir]
        rw [if_pos hc]
      obtain ⟨ext, h1, h2, h3, h4, h5⟩ := ih
        (q0 ++ [((x + d.1, y + d.2), path ++ [(x + d.1, y + d.2)])])
        (v0 ++ [(x + d.1, y + d.2)])
      refine ⟨((x + d.1, y + d.2), path ++ [(x + d.1, y + d.2)]) :: ext,
        ?_, ?_, ?_, ?_, ?_⟩
      · rw [hstep, h1]
        simp
      · rw [hstep, h2]
        simp
      · intro e he
        rcases List.mem_cons.mp he with rfl | he
        · refine ⟨⟨d, List.mem_cons_self _ _, rfl⟩, rfl, ?_, hc.2.1⟩
          rw [trav_iff]
          exact ⟨hc.1, hc.2.2⟩
        · obtain ⟨⟨d', hd', he1⟩, he2, he3, he4⟩ := h3 e he
          refine ⟨⟨d', List.mem_cons_of_mem _ hd', he1⟩, he2, he3, ?_⟩
          intro hmem
          exact he4 (List.mem_append_left _ hmem)
      · simp only [List.map_cons, List.nodup_cons]
        constructor
        · intro hmem
          obtain ⟨e, he, heq⟩ := List.mem_map.mp hmem
          have hnot := (h3 e he).2.2.2
          exact hnot (by
            rw [heq]
            exact List.mem_append_right _ (List.mem_singleton_self _))
        · exact h4
      · intro d' hd' htrav
        rcases List.mem_cons.mp hd' with rfl | hd'
        · rw [hstep, h2]
          exact List.mem_append_left _
            (List.mem_append_right _ (List.mem_singleton_self _))
        · rw [hstep]
          exact h5 d' hd' htrav
    · have hstep : (d :: D).foldl (expandDir N g x y path) (q0, v0) =
          D.foldl (expandDir N g x y path) (q0, v0) := by
        rw [List.foldl_cons]
        congr 1
        simp only [expandDir]
        rw [if_neg hc]
      obtain ⟨ext, h1, h2, h3, h4, h5⟩ := ih q0 v0
      refine ⟨ext, by rw [hstep]; exact h1, by rw [hstep]; exact h2, ?_, h4, ?_⟩
      · intro e he
        obtain ⟨⟨d', hd', he1⟩, he2, he3, he4⟩ := h3 e he
        exact ⟨⟨d', List.mem_cons_of_mem _ hd', he1⟩, he2, he3, he4⟩
      · intro d' hd' htrav
        rcases List.mem_cons.mp hd' with rfl | hd'
        · rw [trav_iff] at htrav
          rw [hstep, h2]
          apply List.mem_append_left
          by_contra hno
          exact hc ⟨htrav.1, hno, by simpa using htrav.2⟩
        · rw [hstep]
          exact h5 d' hd' htrav

theorem levels_pop (c : GCell) (p : List GCell) (rest : List Entry)
    (h : ∃ l0 A B, (c, p) :: rest = A ++ B ∧ (∀ e ∈ A, e.2.length = l0) ∧
      (∀ e ∈ B, e.2.length = l0 + 1)) :
    (∀ e ∈ (c, p) :: rest, p.length ≤ e.2.length) ∧
    ∃ A B, rest = A ++ B ∧ (∀ e ∈ A, e.2.length = p.length) ∧
      (∀ e ∈ B, e.2.length = p.length + 1) := by
  obtain ⟨l0, A, B, hq, hA, hB⟩ := h
  cases A with
  | nil =>
    simp only [List.nil_append] at hq
    have hp : p.length = l0 + 1 :=
      hB (c, p) (by rw [← hq]; exact List.mem_cons_self _ _)
    constructor
    · intro e he
      have := hB e (by rw [← hq]; exact he)
      omega
    · refine ⟨rest, [], by simp, ?_, by simp⟩
      intro e he
      have := hB e (by rw [← hq]; exact List.mem_cons_of_mem _ he)
      omega
  | cons a A' =>
    rw [List.cons_append] at hq
    injection hq with h1 h2
    have hp : p.length = l0 := by
      have := hA a (List.mem_cons_self _ _)
      rw [← h1] at this
      exact this
    constructor
    · intro e he
      rcases List.mem_cons.mp he with rfl | he
      · exact Nat.le_refl _
      · rw [h2] at he
        rcases List.mem_append.mp he with he | he
        · have := hA e (List.mem_cons_of_mem _ he)
          omega
        · have := hB e he
          omega
    · refine ⟨A', B, h2, ?_, ?_⟩
      · intro e he
        have := hA e (List.mem_cons_of_mem _ he)
        omega
      · intro e he
        have := hB e he
        omega

theorem bfs_inv_step (N : Nat) (g : Grid) (s : GCell) (c : GCell) (p : List GCell)
    (rest : List Entry) (v : List GCell)
    (hinv : BfsInv N g s ((c, p) :: rest) v) :
    BfsInv N g s (expand N g c.1 c.2 p rest v).1 (expand N g c.1 c.2 p rest v).2 := by
  obtain ⟨ext, hq1, hv1, hext, hnodup, hcover⟩ := expand_spec N g c.1 c.2 p dirs rest v
  have hq1' : (expand N g c.1 c.2 p rest v).1 = rest ++ ext := hq1
  have hv1' : (expand N g c.1 c.2 p rest v).2 = v ++ ext.map (·.1) := hv1
  have hcover' : ∀ d ∈ dirs, trav N g (c.1 + d.1, c.2 + d.2) = true →
      (c.1 + d.1, c.2 + d.2) ∈ (expand N g c.1 c.2 p rest v).2 := hcover
  obtain ⟨hmin, A', B', hrest, hA', hB'⟩ := levels_pop c p rest hinv.levels
  have hreach_c : Reaches N g s p c := hinv.entries (c, p) (List.mem_cons_self _ _)
  have hopt_c : ∀ w, Reaches N g s w c → p.length ≤ w.length :=
    hinv.opt (c, p) (List.mem_cons_self _ _)
  have hext_shape : ∀ e ∈ ext, adjB c e.1 = true ∧ e.2 = p ++ [e.1] ∧
      trav N g e.1 = true ∧ e.1 ∉ v := by
    intro e he
    obtain ⟨⟨d, hd, hcd⟩, h2, h3, h4⟩ := hext e he
    refine ⟨?_, h2, h3, h4⟩
    rw [hcd]
    exact adjB_cadd c d hd
  have hL : ∀ w z, Reaches N g s w z → w.length ≤ p.length →
      z ∈ (expand N g c.1 c.2 p rest v).2 := by
    intro w z hw hlen
    rcases eq_or_ne w [] with rfl | hne
    · have hz : z = s := (reaches_nil_iff N g s z).mp hw
      rw [hz, hv1']
      exact List.mem_append_left _ hinv.startVis
    · obtain ⟨w', m, rfl, hw', hadj, htrav⟩ := reaches_decomp N g s w z hw hne
      have hlen' : w'.length < p.length := by
        rw [List.length_append] at hlen
        simp only [List.length_singleton] at hlen
        omega
      have hm : m ∈ v := hinv.frontier m w' hw' (by
        intro e he
        have := hmin e he
        omega)
      by_cases hmc : m = c
      · subst hmc
        obtain ⟨d, hd, hzd⟩ := adjB_exists m z hadj
        rw [hzd] at htrav ⊢
        exact hcover' d hd htrav
      · by_cases hmrest : ∃ e ∈ rest, e.1 = m
        · exfalso
          obtain ⟨e, he, hem⟩ := hmrest
          rw [← hem] at hw'
          have h1 := hinv.opt e (List.mem_cons_of_mem _ he) w' hw'
          have h2 := hmin e (List.mem_cons_of_mem _ he)
          omega
        · push_neg at hmrest
          have hzv : z ∈ v := hinv.expanded m hm (by
            intro e he
            rcases List.mem_cons.mp he with rfl | he
            · exact fun hh => hmc hh.symm
            · exact fun hh => hmrest e he hh) z hadj htrav
          rw [hv1']
          exact List.mem_append_left _ hzv
  have hopt_ext : ∀ e ∈ ext, ∀ w, Reaches N g s w e.1 → p.length + 1 ≤ w.length := by
    intro e he w hw
    by_contra hcon
    push_neg at hcon
    have hlen : w.length ≤ p.length := by omega
    obtain ⟨hadjce, he2, htrave, hnv⟩ := hext_shape e he
    rcases eq_or_ne w [] with rfl | hne
    · have hz : e.1 = s := (reaches_nil_iff N g s e.1).mp hw
      exact hnv (by rw [hz]; exact hinv.startVis)
    · obtain ⟨w', m, hwdec, hw', hadjm, htravz⟩ := reaches_decomp N g s w e.1 hw hne
      have hlen' : w'.length < p.length := by
        rw [hwdec, List.length_append] at hlen
        simp only [List.length_singleton] at hlen
        omega
      have hm : m ∈ v := hinv.frontier m w' hw' (by
        intro e' he'
        have := hmin e' he'
        omega)
      by_cases hmc : m = c
      · subst hmc
        have := hopt_c w' hw'
        omega
      · by_cases hmrest : ∃ e' ∈ rest, e'.1 = m
        · obtain ⟨e', he', hem⟩ := hmrest
          rw [← hem] at hw'
          have h1 := hinv.opt e' (List.mem_cons_of_mem _ he') w' hw'
          have h2 := hmin e' (List.mem_cons_of_mem _ he')
          omega
        · push_neg at hmrest
          have hzv : e.1 ∈ v := hinv.expanded m hm (by
            intro e' he'
            rcases List.mem_cons.mp he' with rfl | he'
            · exact fun hh => hmc hh.symm
            · exact fun hh => hmrest e' he' hh) e.1 hadjm htravz
          exact hnv hzv
  have hexp_new : ∀ z ∈ (expand N g c.1 c.2 p rest v).2,
      (∀ e ∈ (expand N g c.1 c.2 p rest v).1, e.1 ≠ z) →
      ∀ cc, adjB z cc = true → trav N g cc = true →
        cc ∈ (expand N g c.1 c.2 p rest v).2 := by
    intro z hz hnq cc hadj htrav
    rw [hv1'] at hz
    rcases List.mem_append.mp hz with hzv | hzext
    · by_cases hzc : z = c
      · subst hzc
        obtain ⟨d, hd, hcd⟩ := adjB_exists z cc hadj
        rw [hcd] at htrav ⊢
        exact hcover' d hd htrav
      · have hzold : ∀ e ∈ (c, p) :: rest, e.1 ≠ z := by
          intro e he
          rcases List.mem_cons.mp he with rfl | he
          · exact fun hh => hzc hh.symm
          · apply hnq e
            rw [hq1']
            exact List.mem_append_left _ he
        have hcc := hinv.expanded z hzv hzold cc hadj htrav
        rw [hv1']
        exact List.mem_append_left _ hcc
    · exfalso
      obtain ⟨e, he, he1⟩ := List.mem_map.mp hzext
      exact hnq e (by rw [hq1']; exact List.mem_append_right _ he) he1
  refine ⟨?_, ?_, ?_, ?_, ?_, ?_, hexp_new, ?_⟩
  · rw [hv1']
    exact List.mem_append_left _ hinv.startVis
  · rw [hq1']
    intro e he
    rcases List.mem_append.mp he with he | he
    · exact hinv.entries e (List.mem_cons_of_mem _ he)
    · obtain ⟨hadjce, he2, htrave, hnv⟩ := hext_shape e he
      rw [he2]
      exact reaches_snoc_intro N g s p c e.1 hreach_c hadjce htrave
  · rw [hq1']
    intro e he
    rcases List.mem_append.mp he with he | he
    · exact hinv.noStart e (List.mem_cons_of_mem _ he)
    · obtain ⟨hadjce, he2, htrave, hnv⟩ := hext_shape e he
      rw [he2]
      intro hmem
      rcases List.mem_append.mp hmem with hmem | hmem
      · exact hinv.noStart (c, p) (List.mem_cons_self _ _) hmem
      · have hs : s = e.1 := by simpa using hmem
        exact hnv (by rw [← hs]; exact hinv.startVis)
  · rw [hq1']
    intro e he
    rcases List.mem_append.mp he with he | he
    · exact hinv.opt e (List.mem_cons_of_mem _ he)
    · intro w hw
      have hge := hopt_ext e he w hw
      rw [(hext_shape e he).2.1]
      simp only [List.length_append, List.length_singleton]
      omega
  · refine ⟨p.length, A', B' ++ ext, ?_, hA', ?_⟩
    · rw [hq1', hrest, List.append_assoc]
    · intro e he
      rcases List.mem_append.mp he with he | he
      · exact hB' e he
      · rw [(hext_shape e he).2.1]
        simp
  · intro z w hw hsmall
    rw [hq1'] at hsmall
    by_cases hle : w.length ≤ p.length
    · exact hL w z hw hle
    · cases hq : rest ++ ext with
      | nil =>
        have hall : ∀ w0, ∀ z0, Reaches N g s w0 z0 →
            z0 ∈ (expand N g c.1 c.2 p rest v).2 := by
          intro w0
          induction w0 using List.reverseRecOn with
          | nil =>
            intro z0 hz0
            have hz : z0 = s := (reaches_nil_iff N g s z0).mp hz0
            rw [hz, hv1']
            exact List.mem_append_left _ hinv.startVis
          | append_singleton w1 a ihw =>
            intro z0 hz0
            rw [reaches_snoc_iff] at hz0
            obtain ⟨⟨m, hm, hadjm, htrava⟩, rfl⟩ := hz0
            refine hexp_new m (ihw m hm) ?_ _ hadjm htrava
            intro e he
            rw [hq1', hq] at he
            cases he
        exact hall w z hw
      | cons e0 q0 =>
        exfalso
        have he0 : e0 ∈ rest ++ ext := by
          rw [hq]
          exact List.mem_cons_self _ _
        have h0 := hsmall e0 he0
        have hb : e0.2.length ≤ p.length + 1 := by
          rcases List.mem_append.mp he0 with he0 | he0
          · rw [hrest] at he0
            rcases List.mem_append.mp he0 with he0 | he0
            · rw [hA' e0 he0]
              omega
            · rw [hB' e0 he0]
          · rw [(hext_shape e0 he0).2.1]
            simp
        omega
  · rw [hq1']
    intro e he
    rcases List.mem_append.mp he with he | he
    · rw [hv1']
      exact List.mem_append_left _ (hinv.cells e (List.mem_cons_of_mem _ he))
    · rw [hv1']
      exact List.mem_append_right _ (List.mem_map_of_mem _ he)

theorem bfsAux_sound (N : Nat) (g : Grid) (s : GCell) (tx ty : Int) :
    ∀ (fuel : Nat) (q : List Entry) (v : List GCell),
      BfsInv N g s q v →
      bfsAux N g tx ty fuel q v ≠ [] →
      Reaches N g s (bfsAux N g tx ty fuel q v) (tx, ty) ∧
      s ∉ bfsAux N g tx ty fuel q v ∧
      ∀ w, Reaches N g s w (tx, ty) →
        (bfsAux N g tx ty fuel q v).length ≤ w.length := by
  intro fuel
  induction fuel with
  | zero =>
    intro q v _ hne
    cases hne rfl
  | succ fuel ih =>
    intro q v hinv hne
    cases q with
    | nil => cases hne rfl
    | cons e rest =>
      obtain ⟨c, p⟩ := e
      simp only [bfsAux] at hne ⊢
      by_cases hc : c = (tx, ty)
      · rw [if_pos hc] at hne ⊢
        have hr := hinv.entries (c, p) (List.mem_cons_self _ _)
        rw [hc] at hr
        refine ⟨hr, hinv.noStart (c, p) (List.mem_cons_self _ _), ?_⟩
        intro w hw
        exact hinv.opt (c, p) (List.mem_cons_self _ _) w (by rw [hc]; exact hw)
      · rw [if_neg hc] at hne ⊢
        exact ih _ _ (bfs_inv_step N g s c p rest v hinv) hne

theorem filter_length_mono (l : List α) (p q : α → Bool)
    (hmono : ∀ a, p a = true → q a = true) :
    (l.filter p).length ≤ (l.filter q).length := by
  induction l with
  | nil => exact Nat.le_refl _
  | cons a l ih =>
    by_cases hpa : p a = true
    · simp only [List.filter_cons, hpa, hmono a hpa, if_true]
      exact Nat.succ_le_succ ih
    · rw [Bool.not_eq_true] at hpa
      cases hqa : q a
      · simp only [List.filter_cons, hpa, hqa, Bool.false_eq_true, if_false]
        exact ih
      · simp only [List.filter_cons, hpa, hqa, Bool.false_eq_true, if_false, if_true]
        exact Nat.le_succ_of_le ih

theorem filter_length_lt (l : List α) (p q : α → Bool) (c : α)
    (hmono : ∀ a, p a = true → q a = true)
    (hc : c ∈ l) (hpc : p c = false) (hqc : q c = true) :
    (l.filter p).length < (l.filter q).length := by
  induction l with
  | nil => cases hc
  | cons a l ih =>
    rcases List.mem_cons.mp hc with rfl | hc
    · simp only [List.filter_cons, hpc, hqc, Bool.false_eq_true, if_false, if_true]
      exact Nat.lt_succ_of_le (filter_length_mono l p q hmono)
    · by_cases hpa : p a = true
      · simp only [List.filter_cons, hpa, hmono a hpa, if_true]
        exact Nat.succ_lt_succ (ih hc)
      · rw [Bool.not_eq_true] at hpa
        cases hqa : q a
        · simp only [List.filter_cons, hpa, hqa, Bool.false_eq_true, if_false]
          exact ih hc
        · simp only [List.filter_cons, hpa, hqa, Bool.false_eq_true, if_false, if_true]
          exact Nat.lt_succ_of_lt (ih hc)

theorem inB_mem_allCells (N : Nat) (c : GCell) (h : inB N c = true) :
    c ∈ allCells N := by
  obtain ⟨x, y⟩ := c
  simp only [inB, Bool.and_eq_true, decide_eq_true_eq] at h
  obtain ⟨⟨⟨h1, h2⟩, h3⟩, h4⟩ := h
  unfold allCells
  rw [List.mem_flatMap]
  refine ⟨x.toNat, List.mem_range.mpr (by omega), ?_⟩
  rw [List.mem_map]
  refine ⟨y.toNat, List.mem_range.mpr (by omega), ?_⟩
  rw [Prod.mk.injEq]
  exact ⟨Int.toNat_of_nonneg h1, Int.toNat_of_nonneg h3⟩

theorem unvis_snoc_lt (N : Nat) (v : List GCell) (c : GCell)
    (hin : inB N c = true) (hnv : c ∉ v) :
    unvis N (v ++ [c]) < unvis N v := by
  apply filter_length_lt (allCells N) _ _ c
  · intro a ha
    simp only [decide_eq_true_eq] at ha ⊢
    intro hav
    exact ha (List.mem_append_left _ hav)
  · exact inB_mem_allCells N c hin
  · simp
  · simp [hnv]

theorem unvis_extend (N : Nat) :
    ∀ (cs : List GCell) (v : List GCell),
      cs.Nodup → (∀ c ∈ cs, inB N c = true) → (∀ c ∈ cs, c ∉ v) →
      unvis N (v ++ cs) + cs.length ≤ unvis N v := by
  intro cs
  induction cs with
  | nil => simp
  | cons c cs ih =>
    intro v hnd hin hnv
    rw [List.nodup_cons] at hnd
    have h1 : unvis N ((v ++ [c]) ++ cs) + cs.length ≤ unvis N (v ++ [c]) := by
      apply ih (v ++ [c]) hnd.2
      · intro c' hc'
        exact hin c' (List.mem_cons_of_mem _ hc')
      · intro c' hc'
        intro hmem
        rcases List.mem_append.mp hmem with hmem | hmem
        · exact hnv c' (List.mem_cons_of_mem _ hc') hmem
        · have : c' = c := by simpa using hmem
          exact hnd.1 (this ▸ hc')
    have h2 : unvis N (v ++ [c]) < unvis N v :=
      unvis_snoc_lt N v c (hin c (List.mem_cons_self _ _)) (hnv c (List.mem_cons_self _ _))
    have happ : v ++ c :: cs = (v ++ [c]) ++ cs := by simp
    rw [happ]
    simp only [List.length_cons]
    omega

theorem bfsAux_complete (N : Nat) (g : Grid) (s : GCell) (tx ty : Int)
    (hsne : s ≠ (tx, ty)) (hreach : ∃ w, Reaches N g s w (tx, ty)) :
    ∀ (fuel : Nat) (q : List Entry) (v : List GCell),
      BfsInv N g s q v →
      q.length + unvis N v ≤ fuel →
      ((tx, ty) ∉ v ∨ ∃ e ∈ q, e.1 = (tx, ty)) →
      bfsAux N g tx ty fuel q v ≠ [] := by
  intro fuel
  induction fuel with
  | zero =>
    intro q v hinv hfuel htrack
    exfalso
    have hq : q = [] := by
      cases q with
      | nil => rfl
      | cons e q' => simp at hfuel
    subst hq
    obtain ⟨w, hw⟩ := hreach
    have hgv : (tx, ty) ∈ v := hinv.frontier _ w hw (by intro e he; cases he)
    rcases htrack with htrack | ⟨e, he, -⟩
    · exact htrack hgv
    · cases he
  | succ fuel ih =>
    intro q v hinv hfuel htrack
    cases q with
    | nil =>
      exfalso
      obtain ⟨w, hw⟩ := hreach
      have hgv : (tx, ty) ∈ v := hinv.frontier _ w hw (by intro e he; cases he)
      rcases htrack with htrack | ⟨e, he, -⟩
      · exact htrack hgv
      · cases he
    | cons e rest =>
      obtain ⟨c, p⟩ := e
      simp only [bfsAux]
      by_cases hc : c = (tx, ty)
      · rw [if_pos hc]
        intro hp
        subst hp
        have hre := hinv.entries (c, []) (List.mem_cons_self _ _)
        have hcs : c = s := (reaches_nil_iff N g s c).mp hre
        exact hsne (by rw [← hcs, hc])
      · rw [if_neg hc]
        obtain ⟨ext, hq1, hv1, hext, hnodup, hcover⟩ :=
          expand_spec N g c.1 c.2 p dirs rest v
        have hq1' : (expand N g c.1 c.2 p rest v).1 = rest ++ ext := hq1
        have hv1' : (expand N g c.1 c.2 p rest v).2 = v ++ ext.map (·.1) := hv1
        apply ih _ _ (bfs_inv_step N g s c p rest v hinv)
        · rw [hq1', hv1']
          have hun : unvis N (v ++ ext.map (·.1)) + (ext.map (·.1)).length ≤
              unvis N v := by
            apply unvis_extend N _ _ hnodup
            · intro c' hc'
              obtain ⟨e, he, rfl⟩ := List.mem_map.mp hc'
              exact ((trav_iff N g e.1).mp (hext e he).2.2.1).1
            · intro c' hc'
              obtain ⟨e, he, rfl⟩ := List.mem_map.mp hc'
              exact (hext e he).2.2.2
          simp only [List.length_cons] at hfuel
          simp only [List.length_append, List.length_map] at hun ⊢
          omega
        · rcases htrack with htrack | ⟨e, he, he1⟩
          · by_cases hgext : ∃ e ∈ ext, e.1 = (tx, ty)
            · right
              obtain ⟨e, he, he1⟩ := hgext
              exact ⟨e, by rw [hq1']; exact List.mem_append_right _ he, he1⟩
            · left
              rw [hv1']
              intro hmem
              rcases List.mem_append.mp hmem with hmem | hmem
              · exact htrack hmem
              · obtain ⟨e, he, he1⟩ := List.mem_map.mp hmem
                exact hgext ⟨e, he, he1⟩
          · rcases List.mem_cons.mp he with heq | he
            · exfalso
              apply hc
              rw [← he1, heq]
            · right
              exact ⟨e, by rw [hq1']; exact List.mem_append_left _ he, he1⟩

theorem bfs_inv_init (N : Nat) (g : Grid) (s : GCell) :
    BfsInv N g s [(s, [])] [s] := by
  refine ⟨List.mem_singleton_self s, ?_, ?_, ?_, ?_, ?_, ?_, ?_⟩
  · intro e he
    have he' : e = (s, []) := by simpa using he
    subst he'
    exact ⟨rfl, rfl⟩
  · intro e he
    have he' : e = (s, []) := by simpa using he
    subst he'
    exact List.not_mem_nil s
  · intro e he w hw
    have he' : e = (s, []) := by simpa using he
    subst he'
    simp
  · refine ⟨0, [(s, [])], [], by simp, ?_, by simp⟩
    intro e he
    have he' : e = (s, []) := by simpa using he
    subst he'
    rfl
  · intro z w hw hsmall
    exfalso
    have := hsmall (s, []) (List.mem_singleton_self _)
    simp at this
  · intro z hz hnq cc hadj htrav
    exfalso
    have hzs : z = s := by simpa using hz
    exact hnq (s, []) (List.mem_singleton_self _) hzs.symm
  · intro e he
    have he' : e = (s, []) := by simpa using he
    subst he'
    exact List.mem_singleton_self s

theorem allCells_length (N : Nat) : (allCells N).length = N * N := by
  unfold allCells
  rw [List.length_flatMap]
  have hmap : List.map (List.length ∘ fun a =>
      List.map (fun b => (Int.ofNat a, Int.ofNat b)) (List.range N)) (List.range N) =
      List.replicate N N := by
    rw [show (List.length ∘ fun a =>
        List.map (fun b => (Int.ofNat a, Int.ofNat b)) (List.range N)) =
        (fun _ : Nat => N) from ?_]
    · rw [List.map_const', List.length_range]
    · funext a
      simp
  rw [hmap, List.sum_replicate, smul_eq_mul]

theorem unvis_le (N : Nat) (v : List GCell) : unvis N v ≤ N * N := by
  rw [← allCells_length N]
  exact List.length_filter_le _ _

theorem applyVictory_inv (s : GameState) (h : SchedInv s) :
    SchedInv (applyVictory s) := by
  unfold applyVictory
  cases check_victory s.mice s.cheeses with
  | none => exact h
  | some w => exact ⟨h.1, h.2.1, h.2.2⟩

theorem process_turn_core_inv (s : GameState) (t : Int) (h : SchedInv s) :
    SchedInv (process_turn_core s t) := by
  unfold process_turn_core
  split_ifs with hlt
  · exact h
  · exact applyVictory_inv _ (dispatch_inv _ t (schedInv_set_last s t h))

theorem process_turn_inv (s : GameState) (t : Int) (h : SchedInv s) :
    SchedInv (process_turn s t) := by
  unfold process_turn
  split_ifs with hgate
  · cases hexec : exec_next_move s t with
    | mk done s1 =>
      cases done with
      | true =>
        have hs1 : s1 = s := exec_true_eq s t s1 hexec
        subst hs1
        dsimp only
        exact process_turn_core_inv _ t h
      | false =>
        dsimp only
        have hx := exec_inv s t h
        rw [hexec] at hx
        exact hx
  · exact process_turn_core_inv _ t h

theorem setAnims_get? (l : List MouseS) (f : Nat → Bool) (i : Nat) :
    (setAnims l f).get? i = (l.get? i).map (fun m => { m with animating := f i }) := by
  unfold setAnims
  rw [List.get?_map, List.enum_get?]
  cases l.get? i <;> rfl

theorem mAlive_setAnims (l : List MouseS) (f : Nat → Bool) (i : Nat) :
    mAlive (setAnims l f) i = mAlive l i := by
  unfold mAlive
  rw [setAnims_get?]
  cases l.get? i <;> rfl

theorem gstep_inv (s s' : GameState) (hst : GStep s s') (h : SchedInv s) :
    SchedInv s' := by
  cases hst with
  | turn t hw => exact process_turn_inv s t h
  | anim b f =>
    refine ⟨fun hp => h.1 hp, ?_, ?_⟩
    · intro hp
      refine ⟨(h.2.1 hp).1, ?_⟩
      show mAlive (setAnims s.mice f) 0 = true
      rw [mAlive_setAnims]
      exact (h.2.1 hp).2
    · intro hp
      refine ⟨(h.2.2 hp).1, ?_⟩
      show mAlive (setAnims s.mice f) 1 = true
      rw [mAlive_setAnims]
      exact (h.2.2 hp).2
  | speed m => exact ⟨h.1, h.2.1, h.2.2⟩

theorem reachable_inv (s : GameState) (h : ReachableGS s) : SchedInv s := by
  obtain ⟨s0, hinit, hsteps⟩ := h
  have hbase : SchedInv s0 := by
    obtain ⟨hph, hpend, -, -⟩ := hinit
    refine ⟨fun _ => hpend, ?_, ?_⟩
    · intro hh
      rw [hph] at hh
      cases hh
    · intro hh
      rw [hph] at hh
      cases hh
  induction hsteps with
  | refl => exact hbase
  | tail hsteps hstep ih => exact gstep_inv _ _ hstep ih

theorem process_turn_empty_pending (s : GameState) (t : Int) (hp : s.pending = []) :
    process_turn s t = process_turn_core s t := by
  unfold process_turn
  split_ifs with hgate
  · have hx : exec_next_move s t = (true, s) := by
      unfold exec_next_move
      rw [hp]
    rw [hx]
  · rfl

theorem applyVictory_phase (s : GameState) : (applyVictory s).phase = s.phase := by
  unfold applyVictory
  cases check_victory s.mice s.cheeses <;> rfl

theorem mAlive_lt (l : List MouseS) (i : Nat) (h : mAlive l i = true) :
    i < l.length := by
  unfold mAlive at h
  cases hg : l.get? i with
  | none =>
    rw [hg] at h
    cases h
  | some m =>
    obtain ⟨hlt, -⟩ := List.get?_eq_some.mp hg
    exact hlt

theorem dispatch_phase_announce (u : GameState) (t : Int) :
    (u.phase = Phase.ANNOUNCE_CAT → (dispatch u t).phase = Phase.EXECUTE_CAT) ∧
    (u.phase = Phase.ANNOUNCE_MOUSE1 → mAlive u.mice 0 = true →
      (dispatch u t).phase = Phase.EXECUTE_MOUSE1) ∧
    (u.phase = Phase.ANNOUNCE_MOUSE2 → mAlive u.mice 1 = true →
      (dispatch u t).phase = Phase.EXECUTE_MOUSE2) := by
  unfold dispatch
  refine ⟨?_, ?_, ?_⟩
  · intro hph
    rw [hph]
  · intro hph halive
    rw [hph]
    dsimp only
    rw [if_pos ⟨by have := mAlive_lt u.mice 0 halive; omega, halive⟩]
  · intro hph halive
    rw [hph]
    dsimp only
    rw [if_pos ⟨mAlive_lt u.mice 1 halive, halive⟩]

/-- C8: in every reachable state, once the dwell delay has elapsed, the
transition the scheduler takes out of an announce phase is to the
matching execute phase, whichever evaders are alive. -/
theorem announce_unconditional (s : GameState) (hreach : ReachableGS s) (t : Int)
    (ht : turnDelay s ≤ t - s.lastTurnTime) :
    (s.phase = Phase.ANNOUNCE_CAT → (process_turn s t).phase = Phase.EXECUTE_CAT) ∧
    (s.phase = Phase.ANNOUNCE_MOUSE1 →
      (process_turn s t).phase = Phase.EXECUTE_MOUSE1) ∧
    (s.phase = Phase.ANNOUNCE_MOUSE2 →
      (process_turn s t).phase = Phase.EXECUTE_MOUSE2) := by
  have hinv := reachable_inv s hreach
  have hcore : s.pending = [] →
      process_turn s t = applyVictory (dispatch { s with lastTurnTime := t } t) := by
    intro hp
    rw [process_turn_empty_pending s t hp]
    unfold process_turn_core
    rw [if_neg (by omega)]
  refine ⟨?_, ?_, ?_⟩
  · intro hph
    rw [hcore (hinv.1 hph), applyVictory_phase]
    exact (dispatch_phase_announce { s with lastTurnTime := t } t).1 hph
  · intro hph
    rw [hcore (hinv.2.1 hph).1, applyVictory_phase]
    exact (dispatch_phase_announce { s with lastTurnTime := t } t).2.1 hph
      (hinv.2.1 hph).2
  · intro hph
    rw [hcore (hinv.2.2 hph).1, applyVictory_phase]
    exact (dispatch_phase_announce { s with lastTurnTime := t } t).2.2 hph
      (hinv.2.2 hph).2

/-- Non-vacuity check for `announce_unconditional`. -/
theorem announce_unconditional_holds :
    (process_turn stInit 800).phase = Phase.EXECUTE_CAT :=
  (announce_unconditional stInit
    ⟨stInit, ⟨rfl, rfl, rfl, rfl⟩, Relation.ReflTransGen.refl⟩ 800 (by decide)).1 rfl

/-- C1: BFS pathfinding: the returned path never contains the start;
start equal to goal yields the empty path; a non-empty result is a valid
4-connected walk through in-bounds non-wall cells (doors traversable
whether opened or not) ending at the goal, of minimum length among all
such walks; an unreachable goal yields the empty path; and a reachable
goal distinct from the start yields a non-empty path. -/
theorem bfs_pathfind_spec (N : Nat) (g : Grid) (sx sy tx ty : Int) :
    ((sx, sy) : GCell) ∉ bfs_pathfind N g sx sy tx ty ∧
    (((sx, sy) : GCell) = (tx, ty) → bfs_pathfind N g sx sy tx ty = []) ∧
    (bfs_pathfind N g sx sy tx ty ≠ [] →
      Reaches N g (sx, sy) (bfs_pathfind N g sx sy tx ty) (tx, ty) ∧
      ∀ w, Reaches N g (sx, sy) w (tx, ty) →
        (bfs_pathfind N g sx sy tx ty).length ≤ w.length) ∧
    ((¬ ∃ w, w ≠ [] ∧ Reaches N g (sx, sy) w (tx, ty)) →
      bfs_pathfind N g sx sy tx ty = []) ∧
    (((sx, sy) : GCell) ≠ (tx, ty) → (∃ w, Reaches N g (sx, sy) w (tx, ty)) →
      bfs_pathfind N g sx sy tx ty ≠ []) := by
  have hsound : bfs_pathfind N g sx sy tx ty ≠ [] →
      Reaches N g (sx, sy) (bfs_pathfind N g sx sy tx ty) (tx, ty) ∧
      ((sx, sy) : GCell) ∉ bfs_pathfind N g sx sy tx ty ∧
      ∀ w, Reaches N g (sx, sy) w (tx, ty) →
        (bfs_pathfind N g sx sy tx ty).length ≤ w.length :=
    bfsAux_sound N g (sx, sy) tx ty (N * N + 1) [((sx, sy), [])] [(sx, sy)]
      (bfs_inv_init N g (sx, sy))
  refine ⟨?_, ?_, fun hne => ⟨(hsound hne).1, (hsound hne).2.2⟩, ?_, ?_⟩
  · by_cases hne : bfs_pathfind N g sx sy tx ty = []
    · rw [hne]
      exact List.not_mem_nil _
    · exact (hsound hne).2.1
  · intro heq
    injection heq with h1 h2
    subst h1
    subst h2
    exact bfs_pathfind_self N g sx sy
  · intro hnor
    by_contra hne
    exact hnor ⟨_, hne, (hsound hne).1⟩
  · intro hsne hreach
    show bfsAux N g tx ty (N * N + 1) [((sx, sy), [])] [(sx, sy)] ≠ []
    apply bfsAux_complete N g (sx, sy) tx ty hsne hreach (N * N + 1)
      [((sx, sy), [])] [(sx, sy)] (bfs_inv_init N g (sx, sy))
    · have := unvis_le N [(sx, sy)]
      simp only [List.length_singleton]
      omega
    · by_cases hgv : ((tx, ty) : GCell) ∈ [((sx, sy) : GCell)]
      · right
        have hts : ((tx, ty) : GCell) = (sx, sy) := by simpa using hgv
        exact ⟨((sx, sy), []), List.mem_singleton_self _, hts.symm⟩
      · left
        exact hgv

/-- Non-vacuity check for `bfs_pathfind_spec`. -/
theorem bfs_pathfind_spec_holds :
    Reaches 3 g3 (0, 0) (bfs_pathfind 3 g3 0 0 1 0) (1, 0) ∧
    ∀ w, Reaches 3 g3 (0, 0) w (1, 0) →
      (bfs_pathfind 3 g3 0 0 1 0).length ≤ w.length :=
  (bfs_pathfind_spec 3 g3 0 0 1 0).2.2.1 (by decide)

/-- C7: the braiding pass is dead code: it samples only even coordinates,
while depth-first carving leaves every even-even cell a wall, so the
two-step continuation check can never see a path cell and no execution of
maze generation ever converts a wall during braiding.  The generated maze
is always exactly the carved spanning tree. -/
theorem braiding_never_carves (N : Nat) (ds : List Nat) (bs : List (Nat × Nat)) :
    generate_maze_dfs N ds bs = dfs_carve N ds := by
  unfold generate_maze_dfs
  exact braid_even_noop N _ _ (dfs_carve_evenWall N ds)

end CatMouse
